import Mathlib

/-!
# djson: path navigation over decoded JSON values

Shallow embedding of `djson.go`.  A Go `interface{}` value is modelled by `Iface`; the
storage it refers to (slice backing arrays, maps) and the standalone `interface{}`
variables that a `*interface{}` may point to live in an explicit `Heap`.  Every method of
`Node` becomes a function that takes the heap and returns its result together with the
heap it leaves behind, so that aliasing between a handle and the document is visible.

Go strings are modelled by Lean strings read as character lists; the only separator the
code looks for is the ASCII dot, so splitting by characters and by bytes agree.
`int` is taken to be 64 bits wide.
-/

namespace Djson

/-! ## Values, storage and handles -/

/-- Dynamic content of a Go `interface{}`: the six shapes `json.Unmarshal` produces, and
`other` for a value of any further dynamic type a caller may hand to `Set`.
A `float64` is carried by its IEEE-754 bit pattern; a slice is its header (backing array,
offset of its first element in that array, length); a map is a reference. -/
inductive Iface where
  | nil
  | bool (b : Bool)
  | float64 (bits : Nat)
  | string (s : String)
  | slice (arr off len : Nat)
  | map (id : Nat)
  | other (tag : Nat)
  deriving DecidableEq, Repr

/-- Heap object: the backing array of a `[]interface{}` or the contents of a
`map[string]interface{}` (an association list, first entry for a key wins). -/
inductive Obj where
  | arr (cells : List Iface)
  | map (entries : List (String × Iface))
  deriving DecidableEq, Repr

/-- Program store: standalone `interface{}` variables and container objects. -/
structure Heap where
  vars : List Iface
  objs : List Obj
  deriving DecidableEq, Repr

/-- Target of a non-nil `*interface{}`: a standalone variable, or one element of a backing
array. -/
inductive Ptr where
  | var (id : Nat)
  | elem (arr idx : Nat)
  deriving DecidableEq, Repr

/-- Go `type Node struct { IfaceP *interface{} }`; `none` is the nil pointer of `Node{}`. -/
structure Node where
  IfaceP : Option Ptr
  deriving DecidableEq, Repr

/-- Failures: the `error` values the package returns, and the run-time panics of the
indexing, slicing, dereferencing and type-assertion operations it performs. -/
inductive Err where
  | leafNode
  | keyNotFound (key : String)
  | unknownCase
  | numError (fn : String) (num : String) (outOfRange : Bool)
  | panicIndex
  | panicSlice
  | panicNil
  | panicAssert
  deriving DecidableEq, Repr

def TypeUnknown : Nat := 0
def TypeNull : Nat := 1
def TypeBool : Nat := 2
def TypeFloat : Nat := 3
def TypeString : Nat := 4
def TypeArray : Nat := 5
def TypeObject : Nat := 6

/-! ## Go library operations used by the package -/

/-- Go `strings.Split(s, ".")` on the characters of `s`. -/
def splitDot : List Char → List (List Char)
  | [] => [[]]
  | c :: cs =>
    if c = '.' then [] :: splitDot cs
    else
      match splitDot cs with
      | [] => [[c]]
      | seg :: rest => (c :: seg) :: rest

/-- Go `strings.Split(path, ".")`. -/
def Split (path : String) : List String :=
  (splitDot path.data).map String.mk

/-- Position of the last dot among the characters, counted from `pos`. -/
def lastDotFrom : List Char → Nat → Option Nat
  | [], _ => none
  | c :: cs, pos =>
    match lastDotFrom cs (pos + 1) with
    | some j => some j
    | none => if c = '.' then some pos else none

/-- Go `strings.LastIndex(path, ".")`: `-1` when there is no dot. -/
def LastIndex (path : String) : Int :=
  match lastDotFrom path.data 0 with
  | some j => (j : Int)
  | none => -1

/-- Go `path[i:]` for `0 ≤ i ≤ len(path)`. -/
def sliceFrom (path : String) (i : Int) : String :=
  String.mk (path.data.drop i.toNat)

/-- Go `path[:i]` for `0 ≤ i ≤ len(path)`. -/
def sliceTo (path : String) (i : Int) : String :=
  String.mk (path.data.take i.toNat)

/-- Decimal digit loop of `strconv.ParseUint(s, 10, bitSize)`: `n` is the value read so far;
a non-digit is a syntax error, an overflow of 64 bits or of `bitSize` bits a range error. -/
def parseUintLoop (s0 : String) (bitSize : Nat) : List Char → Nat → Except Err Nat
  | [], n => .ok n
  | c :: cs, n =>
    if '0' ≤ c ∧ c ≤ '9' then
      if n ≥ (2 ^ 64 - 1) / 10 + 1 then .error (.numError "ParseUint" s0 true)
      else
        let n1 := n * 10 + (c.toNat - 48)
        if n1 ≥ 2 ^ 64 ∨ n1 > 2 ^ bitSize - 1 then .error (.numError "ParseUint" s0 true)
        else parseUintLoop s0 bitSize cs n1
    else .error (.numError "ParseUint" s0 false)

/-- Go `strconv.ParseUint(s, 10, bitSize)`. -/
def ParseUint (s : String) (bitSize : Nat) : Except Err Nat :=
  if s.data = [] then .error (.numError "ParseUint" s false)
  else parseUintLoop s bitSize s.data 0

/-- Go `strconv.ParseInt(s, 10, bitSize)`: optional sign, then `ParseUint`, then the check
against the signed range of `bitSize` bits. -/
def ParseInt (s : String) (bitSize : Nat) : Except Err Int :=
  match s.data with
  | [] => .error (.numError "ParseInt" s false)
  | c :: cs =>
    let neg := decide (c = '-')
    let body := if c = '+' ∨ c = '-' then cs else c :: cs
    match ParseUint (String.mk body) bitSize with
    | .error (.numError _ _ false) => .error (.numError "ParseInt" s false)
    | .error _ => .error (.numError "ParseInt" s true)
    | .ok un =>
      let cutoff := 2 ^ (bitSize - 1)
      if neg = false ∧ un ≥ cutoff then .error (.numError "ParseInt" s true)
      else if neg = true ∧ un > cutoff then .error (.numError "ParseInt" s true)
      else .ok (if neg then -(un : Int) else (un : Int))

/-- Go `int(x)` for a `uint64`, and the result of an `int` computation that may overflow:
reduction of `n` to the signed 64-bit range `[-2^63, 2^63)` modulo `2^64`, where
`2^63 = 9223372036854775808` and `2^64 = 18446744073709551616`. -/
def wrapInt64 (n : Int) : Int :=
  (n + 9223372036854775808) % 18446744073709551616 - 9223372036854775808

/-- Go `v, ok := m[k]`. -/
def mapLookup (k : String) : List (String × Iface) → Option Iface
  | [] => none
  | (k', v) :: es => if k' = k then some v else mapLookup k es

/-- Go `m[k] = v`. -/
def mapAssign (k : String) (v : Iface) : List (String × Iface) → List (String × Iface)
  | [] => [(k, v)]
  | (k', v') :: es => if k' = k then (k, v) :: es else (k', v') :: mapAssign k v es

/-- Go `delete(m, k)`. -/
def mapDelete (k : String) : List (String × Iface) → List (String × Iface)
  | [] => []
  | (k', v') :: es => if k' = k then es else (k', v') :: mapDelete k es

/-! ## Heap access -/

/-- Contents of backing array `a`. -/
def Heap.cells (h : Heap) (a : Nat) : List Iface :=
  match h.objs[a]? with
  | some (.arr cs) => cs
  | _ => []

/-- Entries of map `m`. -/
def Heap.entries (h : Heap) (m : Nat) : List (String × Iface) :=
  match h.objs[m]? with
  | some (.map es) => es
  | _ => []

/-- Replace the contents of backing array `a`. -/
def Heap.setCells (h : Heap) (a : Nat) (cs : List Iface) : Heap :=
  match h.objs[a]? with
  | some (.arr _) => { h with objs := h.objs.set a (.arr cs) }
  | _ => h

/-- Replace the entries of map `m`. -/
def Heap.setEntries (h : Heap) (m : Nat) (es : List (String × Iface)) : Heap :=
  match h.objs[m]? with
  | some (.map _) => { h with objs := h.objs.set m (.map es) }
  | _ => h

/-- Read through a pointer. -/
def Heap.deref (h : Heap) : Ptr → Option Iface
  | .var id => h.vars[id]?
  | .elem a i => (h.cells a)[i]?

/-- Write through a pointer. -/
def Heap.store (h : Heap) : Ptr → Iface → Heap
  | .var id, v => { h with vars := h.vars.set id v }
  | .elem a i, v => h.setCells a ((h.cells a).set i v)

/-- Go `*(node.IfaceP)`: a nil pointer panics.  A pointer to storage that the store does
not hold cannot be formed in Go; it is given the same outcome as nil. -/
def Node.load (h : Heap) (node : Node) : Except Err Iface :=
  match node.IfaceP with
  | none => .error .panicNil
  | some p =>
    match h.deref p with
    | some v => .ok v
    | none => .error .panicNil

/-! ## The package -/

/-- The type switch of `Node.Type`: there is no case for the nil interface, nor for any
dynamic type besides the five listed, so those fall through to `return 0`. -/
def typeSwitch : Iface → Nat
  | .string _ => TypeString
  | .bool _ => TypeBool
  | .float64 _ => TypeFloat
  | .slice _ _ _ => TypeArray
  | .map _ => TypeObject
  | _ => 0

/-- Go `func (node Node) Type() int`. -/
def Node.TypeOf (h : Heap) (node : Node) : Except Err Nat :=
  match node.load h with
  | .error e => .error e
  | .ok v => .ok (typeSwitch v)

/-- Go `func (node Node) Value() interface{}`. -/
def Node.Value (h : Heap) (node : Node) : Except Err Iface :=
  node.load h

/-- Go `func (node Node) String() string`. -/
def Node.StringOf (h : Heap) (node : Node) : Except Err String :=
  match node.TypeOf h with
  | .error e => .error e
  | .ok typ =>
    if typ = TypeString then
      match node.Value h with
      | .ok (.string s) => .ok s
      | .ok _ => .error .panicAssert
      | .error e => .error e
    else .ok ""

/-- Go `func (node Node) Float() float64`; the result is the bit pattern, `0` being `+0`. -/
def Node.FloatOf (h : Heap) (node : Node) : Except Err Nat :=
  match node.TypeOf h with
  | .error e => .error e
  | .ok typ =>
    if typ = TypeFloat then
      match node.Value h with
      | .ok (.float64 bits) => .ok bits
      | .ok _ => .error .panicAssert
      | .error e => .error e
    else .ok 0

/-- Go `func (node Node) Bool() bool`. -/
def Node.BoolOf (h : Heap) (node : Node) : Except Err Bool :=
  match node.TypeOf h with
  | .error e => .error e
  | .ok typ =>
    if typ = TypeBool then
      match node.Value h with
      | .ok (.bool b) => .ok b
      | .ok _ => .error .panicAssert
      | .error e => .error e
    else .ok false

/-- Go `func (node Node) Array() []interface{}`: the slice header (backing array, offset,
length), or `none` for the nil slice. -/
def Node.ArrayOf (h : Heap) (node : Node) : Except Err (Option (Nat × Nat × Nat)) :=
  match node.TypeOf h with
  | .error e => .error e
  | .ok typ =>
    if typ = TypeArray then
      match node.Value h with
      | .ok (.slice a off len) => .ok (some (a, off, len))
      | .ok _ => .error .panicAssert
      | .error e => .error e
    else .ok none

/-- Go `func (node Node) Object() map[string]interface{}`: the map reference, or `none` for
the nil map. -/
def Node.ObjectOf (h : Heap) (node : Node) : Except Err (Option Nat) :=
  match node.TypeOf h with
  | .error e => .error e
  | .ok typ =>
    if typ = TypeObject then
      match node.Value h with
      | .ok (.map m) => .ok (some m)
      | .ok _ => .error .panicAssert
      | .error e => .error e
    else .ok none

/-- Go `func (proot Node) GetChild(path string) (Node, error)`.  On an array the handle is
the address of the element in the backing array; on an object the member is first copied
into the fresh local `v` and the handle is the address of that local. -/
def Node.GetChild (h : Heap) (proot : Node) (path : String) : Except Err Node × Heap :=
  match proot.TypeOf h, proot.load h with
  | .error e, _ => (.error e, h)
  | _, .error e => (.error e, h)
  | .ok typ, .ok root =>
    if typ ≠ TypeArray ∧ typ ≠ TypeObject then (.error .leafNode, h)
    else if typ = TypeArray then
      match ParseInt path 16 with
      | .error e => (.error e, h)
      | .ok i =>
        match root with
        | .slice a off len =>
          if 0 ≤ i ∧ i < len then (.ok ⟨some (.elem a (off + i.toNat))⟩, h)
          else (.error .panicIndex, h)
        | _ => (.error .panicAssert, h)
    else if typ = TypeObject then
      match root with
      | .map m =>
        match mapLookup path (h.entries m) with
        | some v => (.ok ⟨some (.var h.vars.length)⟩, { h with vars := h.vars ++ [v] })
        | none => (.error (.keyNotFound path), h)
      | _ => (.error .panicAssert, h)
    else (.error .unknownCase, h)

/-- The `for _, seg := range segs` loop of `Get`. -/
def getLoop (h : Heap) (res : Node) : List String → Except Err Node × Heap
  | [] => (.ok res, h)
  | seg :: segs =>
    match res.GetChild h seg with
    | (.error e, h1) => (.error e, h1)
    | (.ok r, h1) => getLoop h1 r segs

/-- Go `func (proot Node) Get(path string) (Node, error)`. -/
def Node.Get (h : Heap) (proot : Node) (path : String) : Except Err Node × Heap :=
  getLoop h proot (Split path)

/-- Go `func (proot Node) SetChild(path string, value interface{}) error`. -/
def Node.SetChild (h : Heap) (proot : Node) (path : String) (value : Iface) :
    Except Err Unit × Heap :=
  match proot.TypeOf h, proot.load h with
  | .error e, _ => (.error e, h)
  | _, .error e => (.error e, h)
  | .ok typ, .ok root =>
    if typ ≠ TypeArray ∧ typ ≠ TypeObject then (.error .leafNode, h)
    else if typ = TypeArray then
      match ParseInt path 16 with
      | .error e => (.error e, h)
      | .ok index =>
        match root with
        | .slice a off len =>
          if 0 ≤ index ∧ index < len then
            (.ok (), h.setCells a ((h.cells a).set (off + index.toNat) value))
          else (.error .panicIndex, h)
        | _ => (.error .panicAssert, h)
    else if typ = TypeObject then
      match root with
      | .map m =>
        match mapLookup path (h.entries m) with
        | some _ => (.ok (), h.setEntries m (mapAssign path value (h.entries m)))
        | none => (.error (.keyNotFound path), h)
      | _ => (.error .panicAssert, h)
    else (.error .unknownCase, h)

/-- Go `func (proot Node) Set(path string, value interface{}) error`. -/
def Node.Set (h : Heap) (proot : Node) (path : String) (value : Iface) :
    Except Err Unit × Heap :=
  let i := LastIndex path
  let childPath := sliceFrom path (i + 1)
  if i = -1 then proot.SetChild h childPath value
  else
    let parentPath := sliceTo path i
    match proot.Get h parentPath with
    | (.error e, h1) => (.error e, h1)
    | (.ok parent, h1) => parent.SetChild h1 childPath value

/-- The loop `for i := index + 1; i < len(s); i++ { s[i-1] = s[i] }` of `DeleteChild`, run
on the backing array `cells` of the slice `s` (offset `off`, length `len`).  The first
argument counts the iterations still to run, so the loop variable is `i = len - (n+1)`
while the condition `i < len` holds; an iteration with `i < 1` panics on its index
expressions before it assigns. -/
def shiftLoop (off len : Nat) : Nat → List Iface → Except Err Unit × List Iface
  | 0, cells => (.ok (), cells)
  | n + 1, cells =>
    let i : Int := (len : Int) - ((n : Int) + 1)
    if 1 ≤ i then
      shiftLoop off len n (cells.set (off + i.toNat - 1) (cells.getD (off + i.toNat) .nil))
    else (.error .panicIndex, cells)

/-- Number of iterations of `for i := index + 1; i < len(s); i++` in `DeleteChild` if none
panics, where `index := int(index64)`: the loop variable starts at `i0 = index + 1` computed
in `int` and runs while it is below `len(s)`, so the count is `len(s) - i0` when that is
positive and `0` otherwise.  Written out by the range of `index64`:
below `2^63 - 1` there is no wrap and `i0 = index64 + 1`; from `2^63 - 1` to `2^64 - 1` the
conversion or the increment wraps and `i0 = index64 + 1 - 2^64 ≤ 0`; the last branch is the
general formula (`loopCount_spec` proves that all three branches agree with it). -/
def loopCount (len index64 : Nat) : Nat :=
  if index64 < 9223372036854775807 then len - (index64 + 1)
  else if index64 < 18446744073709551616 then len + (18446744073709551615 - index64)
  else ((len : Int) - wrapInt64 (wrapInt64 index64 + 1)).toNat

/-- End of the array branch of `DeleteChild`, given the outcome of the loop and the backing
array it leaves: a panic of the loop propagates; otherwise
`*proot.IfaceP = s[:len(s)-1]`, which panics when `len(s) = 0`, and `return nil`. -/
def finishDelete (h : Heap) (p : Ptr) (a off len : Nat) (res : Except Err Unit × List Iface) :
    Except Err Unit × Heap :=
  match res with
  | (.error e, cells) => (.error e, h.setCells a cells)
  | (.ok _, cells) =>
    if len = 0 then (.error .panicSlice, h.setCells a cells)
    else (.ok (), (h.setCells a cells).store p (.slice a off (len - 1)))

/-- Go `func (proot Node) DeleteChild(path string) error`. -/
def Node.DeleteChild (h : Heap) (proot : Node) (path : String) : Except Err Unit × Heap :=
  match proot.TypeOf h, proot.load h with
  | .error e, _ => (.error e, h)
  | _, .error e => (.error e, h)
  | .ok typ, .ok root =>
    if typ ≠ TypeArray ∧ typ ≠ TypeObject then (.error .leafNode, h)
    else if typ = TypeArray then
      match ParseUint path 64 with
      | .error e => (.error e, h)
      | .ok index64 =>
        match root, proot.IfaceP with
        | .slice a off len, some p =>
          finishDelete h p a off len (shiftLoop off len (loopCount len index64) (h.cells a))
        | _, _ => (.error .panicAssert, h)
    else if typ = TypeObject then
      match root with
      | .map m =>
        match mapLookup path (h.entries m) with
        | some _ => (.ok (), h.setEntries m (mapDelete path (h.entries m)))
        | none => (.error (.keyNotFound path), h)
      | _ => (.error .panicAssert, h)
    else (.error .unknownCase, h)

/-- Go `func (proot Node) Delete(path string) error`. -/
def Node.Delete (h : Heap) (proot : Node) (path : String) : Except Err Unit × Heap :=
  let i := LastIndex path
  let childPath := sliceFrom path (i + 1)
  if i = -1 then proot.DeleteChild h childPath
  else
    let parentPath := sliceTo path i
    match proot.Get h parentPath with
    | (.error e, h1) => (.error e, h1)
    | (.ok parent, h1) => parent.DeleteChild h1 childPath

/-! ## Documents -/

/-- `float64` bit patterns of the numbers used in examples. -/
def f1 : Iface := .float64 0x3FF0000000000000
def f2 : Iface := .float64 0x4000000000000000
def f3 : Iface := .float64 0x4008000000000000
def f99 : Iface := .float64 0x4058C00000000000

/-- Heap holding the decoded document `{"a":{"b":[1,2,3]},"c":"x"}`; variable 0 is the
`iface` of `Bytes2Node`. -/
def exDoc : Heap :=
  { vars := [.map 2],
    objs := [.arr [f1, f2, f3], .map [("b", .slice 0 0 3)], .map [("a", .map 1), ("c", .string "x")]] }

/-- Root handle `Node{IfaceP: &iface}` returned by `Bytes2Node`. -/
def rootNode : Node := ⟨some (.var 0)⟩

/-- Heap holding the decoded document `{"a":{"b":[1,99,3]},"c":"x"}`. -/
def exDoc99 : Heap :=
  { vars := [.map 2],
    objs := [.arr [f1, f99, f3], .map [("b", .slice 0 0 3)],
      .map [("a", .map 1), ("c", .string "x")]] }

/-- Heap holding the decoded document `{"a":{"b":[1,2,3]}}`. -/
def abDoc : Heap :=
  { vars := [.map 2],
    objs := [.arr [f1, f2, f3], .map [("b", .slice 0 0 3)], .map [("a", .map 1)]] }

/-- Heap holding the decoded document `[1,2,3]`. -/
def arrDoc : Heap :=
  { vars := [.slice 0 0 3], objs := [.arr [f1, f2, f3]] }

/-- Heap holding the decoded document `[[1,2],[3]]`. -/
def nestedDoc : Heap :=
  { vars := [.slice 2 0 2],
    objs := [.arr [f1, f2], .arr [f3], .arr [.slice 0 0 2, .slice 1 0 1]] }

/-- Heap holding the decoded document `{"a":[1]}`. -/
def oneDoc : Heap :=
  { vars := [.map 1], objs := [.arr [f1], .map [("a", .slice 0 0 1)]] }

/-- Heap holding the decoded document `null`. -/
def nullDoc : Heap :=
  { vars := [.nil], objs := [] }

/-! ## Decoding -/

/-- Parsed JSON text: what `json.Unmarshal` has read before it builds the Go value. -/
inductive JSON where
  | null
  | bool (b : Bool)
  | number (bits : Nat)
  | string (s : String)
  | array (xs : List JSON)
  | object (kvs : List (String × JSON))

mutual
/-- Go value that `json.Unmarshal` builds for a JSON value, with the containers it
allocates appended to `os`: a fresh backing array for every array, a fresh map for every
object, the containers of the children before their parent. -/
def decodeValue : JSON → List Obj → Iface × List Obj
  | .null, os => (.nil, os)
  | .bool b, os => (.bool b, os)
  | .number n, os => (.float64 n, os)
  | .string s, os => (.string s, os)
  | .array xs, os =>
    let r := decodeElems xs os
    (.slice r.2.length 0 r.1.length, r.2 ++ [.arr r.1])
  | .object kvs, os =>
    let r := decodeMembers kvs os []
    (.map r.2.length, r.2 ++ [.map r.1])
/-- Elements of an array, decoded left to right. -/
def decodeElems : List JSON → List Obj → List Iface × List Obj
  | [], os => ([], os)
  | x :: xs, os =>
    let r := decodeValue x os
    let rs := decodeElems xs r.2
    (r.1 :: rs.1, rs.2)
/-- Members of an object, assigned into the map left to right (a repeated key keeps its
last value). -/
def decodeMembers : List (String × JSON) → List Obj → List (String × Iface) →
    List (String × Iface) × List Obj
  | [], os, acc => (acc, os)
  | (k, x) :: kvs, os, acc =>
    let r := decodeValue x os
    decodeMembers kvs r.2 (mapAssign k r.1 acc)
end

/-- Go `func Bytes2Node(b []byte) (Node, error)` on input that parses to `j`: the decoded
value is stored in the fresh variable `iface` and the handle is its address. -/
def Bytes2Node (j : JSON) : Node × Heap :=
  let r := decodeValue j []
  (⟨some (.var 0)⟩, { vars := [r.1], objs := r.2 })

/-- JSON text `{"a":{"b":[1,2,3]},"c":"x"}`. -/
def exJSON : JSON :=
  .object [("a", .object [("b", .array [.number 0x3FF0000000000000,
    .number 0x4000000000000000, .number 0x4008000000000000])]), ("c", .string "x")]

/-! ## Observations -/

/-- Value found at `path`: `proot.Get(path)` followed by `Value()`. -/
def Node.valueAt (h : Heap) (proot : Node) (path : String) : Except Err Iface :=
  match proot.Get h path with
  | (.ok n, h1) => n.Value h1
  | (.error e, _) => .error e

/-- Whether a failure is a run-time panic, as opposed to a returned `error`. -/
def Err.isPanic : Err → Bool
  | .panicIndex => true
  | .panicSlice => true
  | .panicNil => true
  | .panicAssert => true
  | _ => false

/-- The `Node` of the `(Node, error)` pair that `Get` and `GetChild` return: beside a nil
error the node found, beside every non-nil error `Node{}` (`return Node{}, err`), whose
pointer is nil; a call that panics returns nothing. -/
def Node.returned : Except Err Node → Option Node
  | .ok n => some n
  | .error e => if e.isPanic then none else some ⟨none⟩

/-- String payload of a value, `""` when it is not a string. -/
def Iface.stringOr : Iface → String
  | .string s => s
  | _ => ""

/-- Number payload (bit pattern) of a value, `0` when it is not a number. -/
def Iface.floatOr : Iface → Nat
  | .float64 b => b
  | _ => 0

/-- Bool payload of a value, `false` when it is not a bool. -/
def Iface.boolOr : Iface → Bool
  | .bool b => b
  | _ => false

/-- Slice header of a value, `none` (the nil slice) when it is not an array. -/
def Iface.sliceOr : Iface → Option (Nat × Nat × Nat)
  | .slice a off len => some (a, off, len)
  | _ => none

/-- Map reference of a value, `none` (the nil map) when it is not an object. -/
def Iface.mapOr : Iface → Option Nat
  | .map m => some m
  | _ => none

/-- Elements `s[0], ..., s[len(s)-1]` of a slice value; no elements for any other value. -/
def Heap.elems (h : Heap) : Iface → List Iface
  | .slice a off len => ((h.cells a).drop off).take len
  | _ => []


/-! ## Shared prologue of `Set` and `Delete` -/

/-- Terminal segment `path[i+1:]` with `i = strings.LastIndex(path, ".")`. -/
def childPathOf (path : String) : String :=
  sliceFrom path (LastIndex path + 1)

/-- Parent handle that `Set` and `Delete` act on: `proot` itself when the path has no dot,
otherwise `proot.Get(path[:i])`. -/
def Node.parentOf (h : Heap) (proot : Node) (path : String) : Except Err Node × Heap :=
  if LastIndex path = -1 then (.ok proot, h) else proot.Get h (sliceTo path (LastIndex path))

/-! ## Value-level reading of a path -/

/-- Value selected by one segment below the value `v`: what `GetChild` returns a handle to,
read immediately. -/
def stepVal (h : Heap) (v : Iface) (seg : String) : Except Err Iface :=
  match v with
  | .slice a off len =>
    match ParseInt seg 16 with
    | .error e => .error e
    | .ok i =>
      if 0 ≤ i ∧ i < len then
        match (h.cells a)[off + i.toNat]? with
        | some w => .ok w
        | none => .error .panicNil
      else .error .panicIndex
  | .map m =>
    match mapLookup seg (h.entries m) with
    | some w => .ok w
    | none => .error (.keyNotFound seg)
  | _ => .error .leafNode

/-- Value reached from `v` by a list of segments. -/
def walkVal (h : Heap) (v : Iface) : List String → Except Err Iface
  | [] => .ok v
  | seg :: segs =>
    match stepVal h v seg with
    | .error e => .error e
    | .ok w => walkVal h w segs

/-! ## Well-formed stores -/

/-- Container a value refers to, if any. -/
def Iface.ref? : Iface → Option Nat
  | .slice a _ _ => some a
  | .map m => some m
  | _ => none

/-- The four scalar shapes of a decoded document. -/
def Iface.isScalar : Iface → Bool
  | .nil => true
  | .bool _ => true
  | .float64 _ => true
  | .string _ => true
  | _ => false

/-- A slice header lies inside an existing backing array; a map reference names a map. -/
def Iface.validIn (h : Heap) : Iface → Bool
  | .slice a off len =>
    match h.objs[a]? with
    | some (.arr cs) => decide (off + len ≤ cs.length)
    | _ => false
  | .map m =>
    match h.objs[m]? with
    | some (.map _) => true
    | _ => false
  | _ => true

/-- Values stored in a container. -/
def Obj.slots : Obj → List Iface
  | .arr cs => cs
  | .map es => es.map Prod.snd

/-- A Go map holds each key once. -/
def Obj.keysNodup : Obj → Bool
  | .arr _ => true
  | .map es => decide (es.map Prod.fst).Nodup

/-- Every stored slice or map value refers to storage that exists, and maps have distinct
keys: what Go's type and memory safety guarantee of any reachable store. -/
def Heap.wellFormed (h : Heap) : Bool :=
  h.vars.all (fun v => v.validIn h) &&
    h.objs.all (fun o => o.slots.all (fun v => v.validIn h) && o.keysNodup)

/-- No container is reachable from itself: containers are numbered so that every value
stored in container `c` refers to a container with a smaller number.  A freshly decoded
document, whose containers form a tree, can always be numbered this way (children before
parents). -/
def Heap.acyclic (h : Heap) : Bool :=
  (List.range h.objs.length).all fun c =>
    ((h.objs.getD c (.arr [])).slots.all fun v =>
      match v.ref? with
      | some r => decide (r < c)
      | none => true)

/-- Store `h1` is `h` with further standalone variables allocated: same containers, and
every variable of `h` is kept with its content. -/
def Heap.GrowsTo (h h1 : Heap) : Prop :=
  h1.objs = h.objs ∧ h.vars <+: h1.vars

/-! ## Invariant of decoding -/

/-- A value stored below position `bound` of the container list refers to storage that
exists, at a position below `bound`. -/
def ValOK (os : List Obj) (bound : Nat) (v : Iface) : Prop :=
  v.validIn ⟨[], os⟩ = true ∧ ∀ r, v.ref? = some r → r < bound

/-- Every container holds values that refer to existing containers before it, and every map
has distinct keys. -/
def SlotsOK (os : List Obj) : Prop :=
  ∀ c o, os[c]? = some o → (∀ v ∈ o.slots, ValOK os c v) ∧ o.keysNodup = true

/-! ## The path walk in the words of the specification -/

/-- Failure kinds of the specification: a path that continues below a scalar, an array
segment that is not an integer the parser accepts, an index outside the array, an absent
key; `Other` is any run-time failure outside this list. -/
inductive Failure where
  | LeafNodeError
  | IndexParseError
  | IndexOutOfRange
  | KeyNotFound
  | Other
  deriving DecidableEq, Repr

/-- Kind of a failure of the code. -/
def Err.failure : Err → Failure
  | .leafNode => .LeafNodeError
  | .keyNotFound _ => .KeyNotFound
  | .numError _ _ _ => .IndexParseError
  | .panicIndex => .IndexOutOfRange
  | _ => .Other

/-- Decimal digit. -/
def isDigit (c : Char) : Bool :=
  decide ('0' ≤ c ∧ c ≤ '9')

/-- Value of a string of decimal digits, continuing from the value `n` of the digits
before it. -/
def digitsFrom (ds : List Char) (n : Nat) : Nat :=
  ds.foldl (fun m d => m * 10 + (d.toNat - 48)) n

/-- A segment read as a base-10 integer in the signed 16-bit range: an optional sign, then
one or more decimal digits, with value between `-32768` and `32767`. -/
def specInt16 (seg : String) : Option Int :=
  match seg.data with
  | [] => none
  | c :: cs =>
    let body := if c = '+' ∨ c = '-' then cs else c :: cs
    if body ≠ [] ∧ body.all isDigit = true then
      let v : Int := if c = '-' then -((digitsFrom body 0 : Nat) : Int) else (digitsFrom body 0 : Nat)
      if -32768 ≤ v ∧ v ≤ 32767 then some v else none
    else none

/-- A segment that is a non-negative decimal integer literal: one or more decimal digits. -/
def isDigits (seg : String) : Bool :=
  decide (seg.data ≠ []) && seg.data.all isDigit

/-- The segments of a path: what lies between its dots. -/
def specSplit (path : String) : List String :=
  (path.data.splitOn '.').map String.mk

/-- One child selection on a value: on an array the element at the index the segment reads
as, on an object the member with that key, on anything else a failure. -/
def specChild (h : Heap) (v : Iface) (seg : String) : Except Failure Iface :=
  match v with
  | .slice a off len =>
    match specInt16 seg with
    | none => .error .IndexParseError
    | some i =>
      if 0 ≤ i ∧ i < (len : Int) then
        match (h.elems (.slice a off len))[i.toNat]? with
        | some w => .ok w
        | none => .error .IndexOutOfRange
      else .error .IndexOutOfRange
  | .map m =>
    match mapLookup seg (h.entries m) with
    | some w => .ok w
    | none => .error .KeyNotFound
  | _ => .error .LeafNodeError

/-- Child selections applied in order, stopping at the first failure. -/
def specWalk (h : Heap) (v : Iface) : List String → Except Failure Iface
  | [] => .ok v
  | seg :: segs =>
    match specChild h v seg with
    | .error f => .error f
    | .ok w => specWalk h w segs

/-- The value `get(root, path)` of the specification, for a root value `v`. -/
def specGet (h : Heap) (v : Iface) (path : String) : Except Failure Iface :=
  specWalk h v (specSplit path)

/-- Equality of results is decidable, so closed instances can be evaluated. -/
instance instDecidableEqExcept {ε α : Type} [DecidableEq ε] [DecidableEq α] :
    DecidableEq (Except ε α)
  | .ok a, .ok b =>
    if h : a = b then isTrue (by rw [h]) else isFalse (fun h' => h (Except.ok.inj h'))
  | .error a, .error b =>
    if h : a = b then isTrue (by rw [h]) else isFalse (fun h' => h (Except.error.inj h'))
  | .ok _, .error _ => isFalse (fun h' => Except.noConfusion h')
  | .error _, .ok _ => isFalse (fun h' => Except.noConfusion h')


/-! ## Paths -/

theorem splitDot_ne_nil (cs : List Char) : splitDot cs ≠ [] := by
  cases cs with
  | nil => simp [splitDot]
  | cons c cs =>
    unfold splitDot
    split
    · simp
    · split <;> simp

theorem splitDot_cons_of_ne (c : Char) (cs : List Char) (hc : c ≠ '.') :
    ∃ seg rest, splitDot cs = seg :: rest ∧ splitDot (c :: cs) = (c :: seg) :: rest := by
  cases hs : splitDot cs with
  | nil => exact absurd hs (splitDot_ne_nil cs)
  | cons seg rest =>
    refine ⟨seg, rest, rfl, ?_⟩
    rw [splitDot, if_neg hc, hs]

theorem splitDot_append (q s : List Char) :
    splitDot (q ++ '.' :: s) = splitDot q ++ splitDot s := by
  induction q with
  | nil => simp [splitDot]
  | cons c q ih =>
    by_cases hc : c = '.'
    · subst hc
      simp [splitDot, ih]
    · obtain ⟨seg, rest, hq, hcq⟩ := splitDot_cons_of_ne c q hc
      obtain ⟨seg', rest', hq', hcq'⟩ := splitDot_cons_of_ne c (q ++ '.' :: s) hc
      rw [List.cons_append, hcq', hcq]
      rw [ih, hq] at hq'
      simp at hq'
      simp [hq'.1, hq'.2]

theorem splitDot_of_not_mem (cs : List Char) (h : '.' ∉ cs) : splitDot cs = [cs] := by
  induction cs with
  | nil => rfl
  | cons c cs ih =>
    have hc : c ≠ '.' := fun e => h (by simp [e])
    have hcs : '.' ∉ cs := fun e => h (by simp [e])
    rw [splitDot, if_neg hc, ih hcs]

theorem lastDotFrom_eq_none (cs : List Char) (pos : Nat) :
    lastDotFrom cs pos = none → '.' ∉ cs := by
  induction cs generalizing pos with
  | nil => simp
  | cons c cs ih =>
    intro h
    unfold lastDotFrom at h
    cases hr : lastDotFrom cs (pos + 1) with
    | some j => rw [hr] at h; simp at h
    | none =>
      rw [hr] at h
      have hc : c ≠ '.' := by
        intro e
        simp [e] at h
      have := ih (pos + 1) hr
      simp [this, Ne.symm hc]

theorem lastDotFrom_eq_some (cs : List Char) (pos j : Nat) :
    lastDotFrom cs pos = some j →
      ∃ pre post, cs = pre ++ '.' :: post ∧ '.' ∉ post ∧ j = pos + pre.length := by
  induction cs generalizing pos j with
  | nil => simp [lastDotFrom]
  | cons c cs ih =>
    intro h
    unfold lastDotFrom at h
    cases hr : lastDotFrom cs (pos + 1) with
    | some k =>
      rw [hr] at h
      simp at h
      obtain ⟨pre, post, hcs, hpost, hk⟩ := ih (pos + 1) k hr
      refine ⟨c :: pre, post, by simp [hcs], hpost, ?_⟩
      simp
      omega
    | none =>
      rw [hr] at h
      by_cases hc : c = '.'
      · simp [hc] at h
        refine ⟨[], cs, by simp [hc], lastDotFrom_eq_none cs _ hr, ?_⟩
        simp [h]
      · simp [hc] at h

/-- Splitting at the last dot and splitting at every dot agree: the segments of `path` are
those of the parent path followed by the terminal segment. -/
theorem Split_decomp (path : String) :
    (LastIndex path = -1 ∧ Split path = [childPathOf path]) ∨
    (LastIndex path ≠ -1 ∧
      Split path = Split (sliceTo path (LastIndex path)) ++ [childPathOf path]) := by
  unfold childPathOf LastIndex
  cases hr : lastDotFrom path.data 0 with
  | none =>
    left
    have := lastDotFrom_eq_none _ _ hr
    simp [Split, sliceFrom, splitDot_of_not_mem _ this]
  | some j =>
    right
    obtain ⟨pre, post, hcs, hpost, hj⟩ := lastDotFrom_eq_some _ _ _ hr
    simp only [Nat.zero_add] at hj
    subst hj
    refine ⟨by simp, ?_⟩
    simp only [Split, sliceFrom, sliceTo, hcs, splitDot_append, splitDot_of_not_mem _ hpost]
    have h1 : ((pre.length : Int) + 1).toNat = pre.length + 1 := by omega
    have h2 : ((pre.length : Int)).toNat = pre.length := by omega
    simp [h1, h2, splitDot_of_not_mem _ hpost]

theorem Split_append_dot (q s : String) : Split (q ++ "." ++ s) = Split q ++ Split s := by
  simp [Split, String.data_append, splitDot_append]

/-! ## Store updates -/

theorem list_set_same {α : Type} (l : List α) (i : Nat) (x : α) (hx : l[i]? = some x) :
    l.set i x = l := by
  apply List.ext_getElem?
  intro j
  by_cases hj : i = j
  · subst hj
    rw [List.getElem?_set_self', hx]
    rfl
  · rw [List.getElem?_set_ne hj]

theorem Heap.setCells_vars (h : Heap) (a : Nat) (cs : List Iface) :
    (h.setCells a cs).vars = h.vars := by
  unfold Heap.setCells
  split <;> rfl

theorem Heap.setEntries_vars (h : Heap) (m : Nat) (es : List (String × Iface)) :
    (h.setEntries m es).vars = h.vars := by
  unfold Heap.setEntries
  split <;> rfl

theorem Heap.setCells_objs_ne (h : Heap) (a c : Nat) (cs : List Iface) (hc : c ≠ a) :
    (h.setCells a cs).objs[c]? = h.objs[c]? := by
  unfold Heap.setCells
  split
  · simp [List.getElem?_set_ne (Ne.symm hc)]
  · rfl

theorem Heap.setEntries_objs_ne (h : Heap) (m c : Nat) (es : List (String × Iface))
    (hc : c ≠ m) : (h.setEntries m es).objs[c]? = h.objs[c]? := by
  unfold Heap.setEntries
  split
  · simp [List.getElem?_set_ne (Ne.symm hc)]
  · rfl

theorem Heap.setCells_objs_length (h : Heap) (a : Nat) (cs : List Iface) :
    (h.setCells a cs).objs.length = h.objs.length := by
  unfold Heap.setCells
  split <;> simp

theorem Heap.setEntries_objs_length (h : Heap) (m : Nat) (es : List (String × Iface)) :
    (h.setEntries m es).objs.length = h.objs.length := by
  unfold Heap.setEntries
  split <;> simp

theorem Heap.cells_setCells (h : Heap) (a : Nat) (cs cs0 : List Iface)
    (ha : h.objs[a]? = some (.arr cs0)) : (h.setCells a cs).cells a = cs := by
  have hlt : a < h.objs.length := by
    rcases Nat.lt_or_ge a h.objs.length with hl | hl
    · exact hl
    · rw [List.getElem?_eq_none hl] at ha
      cases ha
  simp [Heap.setCells, Heap.cells, ha, List.getElem?_set_self, hlt]

theorem Heap.entries_setEntries (h : Heap) (m : Nat) (es es0 : List (String × Iface))
    (hm : h.objs[m]? = some (.map es0)) : (h.setEntries m es).entries m = es := by
  have hlt : m < h.objs.length := by
    rcases Nat.lt_or_ge m h.objs.length with hl | hl
    · exact hl
    · rw [List.getElem?_eq_none hl] at hm
      cases hm
  simp [Heap.setEntries, Heap.entries, hm, List.getElem?_set_self, hlt]

theorem Heap.setCells_cells_self (h : Heap) (a : Nat) : h.setCells a (h.cells a) = h := by
  unfold Heap.setCells Heap.cells
  cases ha : h.objs[a]? with
  | none => rfl
  | some o =>
    cases o with
    | map es => rfl
    | arr cs =>
      simp only
      rw [list_set_same _ _ _ ha]

theorem Heap.cells_congr (h h' : Heap) (a : Nat) (e : h'.objs[a]? = h.objs[a]?) :
    h'.cells a = h.cells a := by
  simp [Heap.cells, e]

theorem Heap.entries_congr (h h' : Heap) (m : Nat) (e : h'.objs[m]? = h.objs[m]?) :
    h'.entries m = h.entries m := by
  simp [Heap.entries, e]

/-! ## One step: handles and values -/

theorem Node.GetChild_slice (h : Heap) (proot : Node) (seg : String) (a off len : Nat)
    (hv : proot.load h = .ok (.slice a off len)) :
    proot.GetChild h seg =
      match ParseInt seg 16 with
      | .error e => (.error e, h)
      | .ok i =>
        if 0 ≤ i ∧ i < len then (.ok ⟨some (.elem a (off + i.toNat))⟩, h)
        else (.error .panicIndex, h) := by
  unfold Node.GetChild Node.TypeOf
  simp only [hv]
  simp [typeSwitch, TypeArray, TypeObject]

theorem Node.GetChild_map (h : Heap) (proot : Node) (seg : String) (m : Nat)
    (hv : proot.load h = .ok (.map m)) :
    proot.GetChild h seg =
      match mapLookup seg (h.entries m) with
      | some w => (.ok ⟨some (.var h.vars.length)⟩, { h with vars := h.vars ++ [w] })
      | none => (.error (.keyNotFound seg), h) := by
  unfold Node.GetChild Node.TypeOf
  simp only [hv]
  simp [typeSwitch, TypeArray, TypeObject]

theorem Node.GetChild_leaf (h : Heap) (proot : Node) (seg : String) (v : Iface)
    (hv : proot.load h = .ok v) (hr : v.ref? = none) :
    proot.GetChild h seg = (.error .leafNode, h) := by
  unfold Node.GetChild Node.TypeOf
  simp only [hv]
  cases v <;> simp [typeSwitch, TypeArray, TypeObject, TypeString, TypeBool, TypeFloat,
    Iface.ref?] at hr ⊢

theorem Node.GetChild_of_load_error (h : Heap) (proot : Node) (seg : String) (e : Err)
    (hv : proot.load h = .error e) : proot.GetChild h seg = (.error e, h) := by
  unfold Node.GetChild Node.TypeOf
  simp only [hv]

theorem Node.SetChild_slice (h : Heap) (proot : Node) (seg : String) (value : Iface)
    (a off len : Nat) (hv : proot.load h = .ok (.slice a off len)) :
    proot.SetChild h seg value =
      match ParseInt seg 16 with
      | .error e => (.error e, h)
      | .ok i =>
        if 0 ≤ i ∧ i < len then
          (.ok (), h.setCells a ((h.cells a).set (off + i.toNat) value))
        else (.error .panicIndex, h) := by
  unfold Node.SetChild Node.TypeOf
  simp only [hv]
  simp [typeSwitch, TypeArray, TypeObject]

theorem Node.SetChild_map (h : Heap) (proot : Node) (seg : String) (value : Iface) (m : Nat)
    (hv : proot.load h = .ok (.map m)) :
    proot.SetChild h seg value =
      match mapLookup seg (h.entries m) with
      | some _ => (.ok (), h.setEntries m (mapAssign seg value (h.entries m)))
      | none => (.error (.keyNotFound seg), h) := by
  unfold Node.SetChild Node.TypeOf
  simp only [hv]
  simp [typeSwitch, TypeArray, TypeObject]

theorem Node.SetChild_leaf (h : Heap) (proot : Node) (seg : String) (value v : Iface)
    (hv : proot.load h = .ok v) (hr : v.ref? = none) :
    proot.SetChild h seg value = (.error .leafNode, h) := by
  unfold Node.SetChild Node.TypeOf
  simp only [hv]
  cases v <;> simp [typeSwitch, TypeArray, TypeObject, TypeString, TypeBool, TypeFloat,
    Iface.ref?] at hr ⊢

theorem Node.SetChild_of_load_error (h : Heap) (proot : Node) (seg : String) (value : Iface)
    (e : Err) (hv : proot.load h = .error e) : proot.SetChild h seg value = (.error e, h) := by
  unfold Node.SetChild Node.TypeOf
  simp only [hv]

theorem Node.DeleteChild_map (h : Heap) (proot : Node) (seg : String) (m : Nat)
    (hv : proot.load h = .ok (.map m)) :
    proot.DeleteChild h seg =
      match mapLookup seg (h.entries m) with
      | some _ => (.ok (), h.setEntries m (mapDelete seg (h.entries m)))
      | none => (.error (.keyNotFound seg), h) := by
  unfold Node.DeleteChild Node.TypeOf
  rw [hv]
  simp [typeSwitch, TypeArray, TypeObject]

theorem Node.DeleteChild_leaf (h : Heap) (proot : Node) (seg : String) (v : Iface)
    (hv : proot.load h = .ok v) (hr : v.ref? = none) :
    proot.DeleteChild h seg = (.error .leafNode, h) := by
  unfold Node.DeleteChild Node.TypeOf
  rw [hv]
  cases v <;> simp [typeSwitch, TypeArray, TypeObject, TypeString, TypeBool, TypeFloat,
    Iface.ref?] at hr ⊢

theorem Node.DeleteChild_of_load_error (h : Heap) (proot : Node) (seg : String)
    (e : Err) (hv : proot.load h = .error e) : proot.DeleteChild h seg = (.error e, h) := by
  unfold Node.DeleteChild Node.TypeOf
  rw [hv]

theorem Node.DeleteChild_slice (h : Heap) (proot : Node) (seg : String) (a off len : Nat)
    (p : Ptr) (hp : proot.IfaceP = some p) (hv : proot.load h = .ok (.slice a off len)) :
    proot.DeleteChild h seg =
      match ParseUint seg 64 with
      | .error e => (.error e, h)
      | .ok index64 =>
        finishDelete h p a off len
          (shiftLoop off len (loopCount len index64) (h.cells a)) := by
  unfold Node.DeleteChild Node.TypeOf
  rw [hv, hp]
  simp [typeSwitch, TypeArray, TypeObject]

theorem Node.load_ok_ptr (h : Heap) (n : Node) (v : Iface) (hv : n.load h = .ok v) :
    ∃ p, n.IfaceP = some p ∧ h.deref p = some v := by
  unfold Node.load at hv
  cases hp : n.IfaceP with
  | none => simp [hp] at hv
  | some p =>
    rw [hp] at hv
    cases hd : h.deref p with
    | none => simp [hd] at hv
    | some w =>
      simp [hd] at hv
      exact ⟨p, rfl, by rw [hd, hv]⟩

theorem wrapInt64_range (n : Int) :
    -9223372036854775808 ≤ wrapInt64 n ∧ wrapInt64 n < 9223372036854775808 := by
  unfold wrapInt64
  omega

/-- The three branches of `loopCount` are the one formula `len(s) - (int(index64) + 1)`,
computed in 64-bit `int` and cut off at zero. -/
theorem loopCount_spec (len index64 : Nat) :
    loopCount len index64 = ((len : Int) - wrapInt64 (wrapInt64 index64 + 1)).toNat := by
  unfold loopCount wrapInt64
  split_ifs <;> omega

theorem loopCount_small (len i : Nat) (hi : i < 9223372036854775807) :
    loopCount len i = len - (i + 1) := by
  unfold loopCount
  rw [if_pos hi]

/-! ## Well-formedness, unpacked -/

theorem getElem?_lt_length {α : Type} (l : List α) (i : Nat) (x : α) (hx : l[i]? = some x) :
    i < l.length := by
  rcases Nat.lt_or_ge i l.length with hl | hl
  · exact hl
  · rw [List.getElem?_eq_none hl] at hx
    cases hx

theorem Heap.wf_vars (h : Heap) (hwf : h.wellFormed = true) (v : Iface) (hv : v ∈ h.vars) :
    v.validIn h = true := by
  unfold Heap.wellFormed at hwf
  rw [Bool.and_eq_true, List.all_eq_true] at hwf
  exact hwf.1 v hv

theorem Heap.wf_slots (h : Heap) (hwf : h.wellFormed = true) (c : Nat) (o : Obj)
    (ho : h.objs[c]? = some o) (v : Iface) (hv : v ∈ o.slots) : v.validIn h = true := by
  unfold Heap.wellFormed at hwf
  rw [Bool.and_eq_true, List.all_eq_true, List.all_eq_true] at hwf
  have hmem : o ∈ h.objs := List.getElem?_mem ho
  have := hwf.2 o hmem
  rw [Bool.and_eq_true, List.all_eq_true] at this
  exact this.1 v hv

theorem Heap.wf_keys (h : Heap) (hwf : h.wellFormed = true) (m : Nat)
    (es : List (String × Iface)) (ho : h.objs[m]? = some (.map es)) :
    (es.map Prod.fst).Nodup := by
  unfold Heap.wellFormed at hwf
  rw [Bool.and_eq_true, List.all_eq_true, List.all_eq_true] at hwf
  have hmem : Obj.map es ∈ h.objs := List.getElem?_mem ho
  have := hwf.2 _ hmem
  rw [Bool.and_eq_true] at this
  simpa [Obj.keysNodup] using this.2

theorem Heap.acyclic_slots (h : Heap) (hac : h.acyclic = true) (c : Nat) (o : Obj)
    (ho : h.objs[c]? = some o) (v : Iface) (hv : v ∈ o.slots) (r : Nat)
    (hr : v.ref? = some r) : r < c := by
  unfold Heap.acyclic at hac
  rw [List.all_eq_true] at hac
  have hlt := getElem?_lt_length _ _ _ ho
  have hc := hac c (List.mem_range.mpr hlt)
  rw [List.all_eq_true] at hc
  have hget : h.objs.getD c (.arr []) = o := by
    simp [List.getD_eq_getElem?_getD, ho]
  rw [hget] at hc
  have := hc v hv
  rw [hr] at this
  simpa using this

theorem mapLookup_mem (k : String) (es : List (String × Iface)) (v : Iface)
    (hl : mapLookup k es = some v) : v ∈ es.map Prod.snd := by
  induction es with
  | nil => simp [mapLookup] at hl
  | cons e es ih =>
    obtain ⟨k', v'⟩ := e
    unfold mapLookup at hl
    by_cases hk : k' = k
    · simp [hk] at hl
      simp [hl]
    · simp [hk] at hl
      simp [ih hl]

theorem Heap.cells_of_valid (h : Heap) (a off len : Nat)
    (hv : (Iface.slice a off len).validIn h = true) :
    ∃ cs, h.objs[a]? = some (.arr cs) ∧ h.cells a = cs ∧ off + len ≤ cs.length := by
  unfold Iface.validIn at hv
  cases ha : h.objs[a]? with
  | none => simp [ha] at hv
  | some o =>
    cases o with
    | map es => simp [ha] at hv
    | arr cs =>
      simp [ha] at hv
      exact ⟨cs, rfl, by simp [Heap.cells, ha], hv⟩

theorem Heap.entries_of_valid (h : Heap) (m : Nat) (hv : (Iface.map m).validIn h = true) :
    ∃ es, h.objs[m]? = some (.map es) ∧ h.entries m = es := by
  unfold Iface.validIn at hv
  cases hm : h.objs[m]? with
  | none => simp [hm] at hv
  | some o =>
    cases o with
    | arr cs => simp [hm] at hv
    | map es => exact ⟨es, rfl, by simp [Heap.entries, hm]⟩

theorem Iface.validIn_congr (h h1 : Heap) (e : h1.objs = h.objs) (v : Iface) :
    v.validIn h1 = v.validIn h := by
  cases v <;> simp [Iface.validIn, e]

/-! ## Growth of the store -/

theorem Heap.GrowsTo.refl (h : Heap) : h.GrowsTo h := ⟨rfl, List.prefix_refl _⟩

theorem Heap.GrowsTo.trans {h h1 h2 : Heap} (a : h.GrowsTo h1) (b : h1.GrowsTo h2) :
    h.GrowsTo h2 := ⟨b.1.trans a.1, a.2.trans b.2⟩

theorem Heap.GrowsTo.cells {h h1 : Heap} (g : h.GrowsTo h1) (a : Nat) :
    h1.cells a = h.cells a := by
  simp [Heap.cells, g.1]

theorem Heap.GrowsTo.entries {h h1 : Heap} (g : h.GrowsTo h1) (m : Nat) :
    h1.entries m = h.entries m := by
  simp [Heap.entries, g.1]

theorem Heap.GrowsTo.deref {h h1 : Heap} (g : h.GrowsTo h1) (p : Ptr) (v : Iface)
    (hd : h.deref p = some v) : h1.deref p = some v := by
  cases p with
  | var id =>
    obtain ⟨t, ht⟩ := g.2
    simp only [Heap.deref] at hd ⊢
    rw [← ht, List.getElem?_append_left (getElem?_lt_length _ _ _ hd)]
    exact hd
  | elem a i =>
    simp only [Heap.deref] at hd ⊢
    rw [g.cells]
    exact hd

theorem Heap.GrowsTo.load {h h1 : Heap} (g : h.GrowsTo h1) (n : Node) (v : Iface)
    (hv : n.load h = .ok v) : n.load h1 = .ok v := by
  obtain ⟨p, hp, hd⟩ := Node.load_ok_ptr h n v hv
  simp [Node.load, hp, g.deref p v hd]

theorem Heap.GrowsTo.wellFormed {h h1 : Heap} (g : h.GrowsTo h1)
    (hnew : ∀ v ∈ h1.vars, v.validIn h = true) (hwf : h.wellFormed = true) :
    h1.wellFormed = true := by
  unfold Heap.wellFormed at hwf ⊢
  rw [Bool.and_eq_true, List.all_eq_true] at hwf ⊢
  refine ⟨fun v hv => ?_, ?_⟩
  · rw [Iface.validIn_congr h h1 g.1]
    exact hnew v hv
  · rw [g.1]
    have h2 := hwf.2
    rw [List.all_eq_true] at h2 ⊢
    intro o ho
    have := h2 o ho
    rw [Bool.and_eq_true, List.all_eq_true] at this ⊢
    refine ⟨fun v hv => ?_, this.2⟩
    rw [Iface.validIn_congr h h1 g.1]
    exact this.1 v hv

theorem Heap.GrowsTo.acyclic {h h1 : Heap} (g : h.GrowsTo h1) (hac : h.acyclic = true) :
    h1.acyclic = true := by
  unfold Heap.acyclic at hac ⊢
  rw [g.1]
  exact hac

theorem Node.GetChild_grows (h : Heap) (proot : Node) (seg : String) :
    h.GrowsTo (proot.GetChild h seg).2 := by
  cases hv : proot.load h with
  | error e =>
    rw [Node.GetChild_of_load_error h proot seg e hv]
    exact Heap.GrowsTo.refl h
  | ok v =>
    cases hr : v.ref? with
    | none =>
      rw [Node.GetChild_leaf h proot seg v hv hr]
      exact Heap.GrowsTo.refl h
    | some r =>
      cases v with
      | slice a off len =>
        rw [Node.GetChild_slice h proot seg a off len hv]
        split
        · exact Heap.GrowsTo.refl h
        · split <;> exact Heap.GrowsTo.refl h
      | map m =>
        rw [Node.GetChild_map h proot seg m hv]
        split
        · exact ⟨rfl, List.prefix_append _ _⟩
        · exact Heap.GrowsTo.refl h
      | _ => simp [Iface.ref?] at hr

theorem getLoop_grows (h : Heap) (n : Node) (segs : List String) :
    h.GrowsTo (getLoop h n segs).2 := by
  induction segs generalizing h n with
  | nil => exact Heap.GrowsTo.refl h
  | cons seg segs ih =>
    unfold getLoop
    have g := Node.GetChild_grows h n seg
    cases hc : n.GetChild h seg with
    | mk r h1 =>
      rw [hc] at g
      cases r with
      | error e => exact g
      | ok r => exact g.trans (ih h1 r)

theorem getLoop_append (h : Heap) (n : Node) (xs ys : List String) :
    getLoop h n (xs ++ ys) =
      match getLoop h n xs with
      | (.error e, h1) => (.error e, h1)
      | (.ok r, h1) => getLoop h1 r ys := by
  induction xs generalizing h n with
  | nil => rfl
  | cons x xs ih =>
    simp only [List.cons_append, getLoop]
    cases hc : n.GetChild h x with
    | mk r h1 =>
      cases r with
      | error e => rfl
      | ok r => exact ih h1 r

theorem getLoop_single (h : Heap) (n : Node) (seg : String) :
    getLoop h n [seg] = n.GetChild h seg := by
  unfold getLoop
  cases hc : n.GetChild h seg with
  | mk r h1 =>
    cases r with
    | error e => rfl
    | ok r => rfl

/-! ## `Get`, `Set` and `Delete` through the parent handle -/

theorem Node.Get_eq_parentOf (h : Heap) (proot : Node) (path : String) :
    proot.Get h path =
      match proot.parentOf h path with
      | (.error e, h1) => (.error e, h1)
      | (.ok parent, h1) => parent.GetChild h1 (childPathOf path) := by
  unfold Node.Get Node.parentOf
  rcases Split_decomp path with ⟨hi, hs⟩ | ⟨hi, hs⟩
  · rw [hs, if_pos hi, getLoop_single]
  · rw [hs, if_neg hi, getLoop_append]
    unfold Node.Get
    cases hc : getLoop h proot (Split (sliceTo path (LastIndex path))) with
    | mk r h1 =>
      cases r with
      | error e => rfl
      | ok r => exact getLoop_single h1 r _

theorem Node.Set_eq_parentOf (h : Heap) (proot : Node) (path : String) (value : Iface) :
    proot.Set h path value =
      match proot.parentOf h path with
      | (.error e, h1) => (.error e, h1)
      | (.ok parent, h1) => parent.SetChild h1 (childPathOf path) value := by
  unfold Node.Set Node.parentOf childPathOf
  by_cases hi : LastIndex path = -1
  · simp [hi]
  · simp only [if_neg hi]

theorem Node.Delete_eq_parentOf (h : Heap) (proot : Node) (path : String) :
    proot.Delete h path =
      match proot.parentOf h path with
      | (.error e, h1) => (.error e, h1)
      | (.ok parent, h1) => parent.DeleteChild h1 (childPathOf path) := by
  unfold Node.Delete Node.parentOf childPathOf
  by_cases hi : LastIndex path = -1
  · simp [hi]
  · simp only [if_neg hi]

theorem Node.parentOf_grows (h : Heap) (proot : Node) (path : String) :
    h.GrowsTo (proot.parentOf h path).2 := by
  unfold Node.parentOf
  split
  · exact Heap.GrowsTo.refl h
  · exact getLoop_grows h proot _

theorem Node.parentOf_eq_getLoop (h : Heap) (proot : Node) (path : String) :
    proot.parentOf h path = getLoop h proot (Split path).dropLast := by
  unfold Node.parentOf
  rcases Split_decomp path with ⟨hi, hs⟩ | ⟨hi, hs⟩
  · rw [hs, if_pos hi]
    rfl
  · rw [hs, if_neg hi, List.dropLast_concat]
    rfl

theorem childPathOf_eq_getLast (path : String) :
    (Split path).getLast? = some (childPathOf path) := by
  rcases Split_decomp path with ⟨_, hs⟩ | ⟨_, hs⟩ <;> rw [hs] <;> simp

theorem Split_ne_nil (path : String) : Split path ≠ [] := by
  unfold Split
  simpa using splitDot_ne_nil path.data

/-! ## Failing steps leave the store alone -/

theorem shiftLoop_ok (off len : Nat) (n : Nat) (cells : List Iface) (hn : n + 1 ≤ len) :
    (shiftLoop off len n cells).1 = .ok () := by
  induction n generalizing cells with
  | zero => rfl
  | succ n ih =>
    unfold shiftLoop
    have h1 : (1 : Int) ≤ (len : Int) - ((n : Int) + 1) := by omega
    simp only [h1, if_true]
    exact ih _ (by omega)

theorem shiftLoop_error (off len : Nat) (n : Nat) (cells cells' : List Iface) (e : Err)
    (hs : shiftLoop off len n cells = (.error e, cells')) :
    cells' = cells ∧ e = .panicIndex ∧ len < n + 1 := by
  cases n with
  | zero => simp [shiftLoop] at hs
  | succ n =>
    unfold shiftLoop at hs
    by_cases h1 : (1 : Int) ≤ (len : Int) - ((n : Int) + 1)
    · simp only [h1, if_true] at hs
      have := shiftLoop_ok off len n
        (cells.set (off + ((len : Int) - ((n : Int) + 1)).toNat - 1)
          (cells.getD (off + ((len : Int) - ((n : Int) + 1)).toNat) .nil)) (by omega)
      rw [hs] at this
      cases this
    · simp only [h1, if_false] at hs
      simp only [Prod.mk.injEq, Except.error.injEq] at hs
      exact ⟨hs.2.symm, hs.1.symm, by omega⟩

theorem Node.SetChild_error (h h' : Heap) (proot : Node) (seg : String) (value : Iface)
    (e : Err) (hs : proot.SetChild h seg value = (.error e, h')) : h' = h := by
  cases hv : proot.load h with
  | error e' =>
    rw [Node.SetChild_of_load_error h proot seg value e' hv] at hs
    exact (Prod.mk.inj hs).2.symm
  | ok v =>
    cases hr : v.ref? with
    | none =>
      rw [Node.SetChild_leaf h proot seg value v hv hr] at hs
      exact (Prod.mk.inj hs).2.symm
    | some r =>
      cases v with
      | slice a off len =>
        rw [Node.SetChild_slice h proot seg value a off len hv] at hs
        split at hs
        · exact (Prod.mk.inj hs).2.symm
        · split at hs
          · cases (Prod.mk.inj hs).1
          · exact (Prod.mk.inj hs).2.symm
      | map m =>
        rw [Node.SetChild_map h proot seg value m hv] at hs
        split at hs
        · cases (Prod.mk.inj hs).1
        · exact (Prod.mk.inj hs).2.symm
      | _ => simp [Iface.ref?] at hr

theorem shiftLoop_len_zero (off : Nat) (n : Nat) (cells cells' : List Iface) (u : Unit)
    (hs : shiftLoop off 0 n cells = (.ok u, cells')) : cells' = cells := by
  cases n with
  | zero =>
    simp only [shiftLoop, Prod.mk.injEq] at hs
    exact hs.2.symm
  | succ n =>
    have := shiftLoop_ok off 0 0 cells
    unfold shiftLoop at hs
    have h0 : ¬ ((1 : Int) ≤ ((0 : Nat) : Int) - ((n : Int) + 1)) := by omega
    rw [if_neg h0] at hs
    cases (Prod.mk.inj hs).1

theorem finishDelete_error (h h' : Heap) (p : Ptr) (a off len n : Nat) (e : Err)
    (hs : finishDelete h p a off len (shiftLoop off len n (h.cells a)) = (.error e, h')) :
    h' = h := by
  cases hl : shiftLoop off len n (h.cells a) with
  | mk r cells =>
    rw [hl] at hs
    cases r with
    | error e' =>
      obtain ⟨hc, _, _⟩ := shiftLoop_error _ _ _ _ _ _ hl
      simp only [finishDelete, Prod.mk.injEq] at hs
      rw [← hs.2, hc, Heap.setCells_cells_self]
    | ok u =>
      by_cases hlen : len = 0
      · subst hlen
        have hc := shiftLoop_len_zero _ _ _ _ _ hl
        simp only [finishDelete, if_true, Prod.mk.injEq] at hs
        rw [← hs.2, hc, Heap.setCells_cells_self]
      · simp only [finishDelete, if_neg hlen, Prod.mk.injEq] at hs
        cases hs.1

theorem Node.DeleteChild_error (h h' : Heap) (proot : Node) (seg : String)
    (e : Err) (hs : proot.DeleteChild h seg = (.error e, h')) : h' = h := by
  cases hv : proot.load h with
  | error e' =>
    rw [Node.DeleteChild_of_load_error h proot seg e' hv] at hs
    exact (Prod.mk.inj hs).2.symm
  | ok v =>
    cases hr : v.ref? with
    | none =>
      rw [Node.DeleteChild_leaf h proot seg v hv hr] at hs
      exact (Prod.mk.inj hs).2.symm
    | some r =>
      obtain ⟨p, hp, _⟩ := Node.load_ok_ptr h proot v hv
      cases v with
      | slice a off len =>
        rw [Node.DeleteChild_slice h proot seg a off len p hp hv] at hs
        cases hpu : ParseUint seg 64 with
        | error e' =>
          rw [hpu] at hs
          exact (Prod.mk.inj hs).2.symm
        | ok index64 =>
          rw [hpu] at hs
          exact finishDelete_error _ _ _ _ _ _ _ _ hs
      | map m =>
        rw [Node.DeleteChild_map h proot seg m hv] at hs
        split at hs
        · cases (Prod.mk.inj hs).1
        · exact (Prod.mk.inj hs).2.symm
      | _ => simp [Iface.ref?] at hr

theorem Node.Set_error_grows (h h' : Heap) (proot : Node) (path : String) (value : Iface)
    (e : Err) (hs : proot.Set h path value = (.error e, h')) : h.GrowsTo h' := by
  rw [Node.Set_eq_parentOf] at hs
  have g := Node.parentOf_grows h proot path
  cases hp : proot.parentOf h path with
  | mk r hp1 =>
    rw [hp] at hs g
    cases r with
    | error e' =>
      simp only at hs
      rw [← (Prod.mk.inj hs).2]
      exact g
    | ok parent =>
      simp only at hs
      rw [Node.SetChild_error _ _ _ _ _ _ hs]
      exact g

theorem Node.Delete_error_grows (h h' : Heap) (proot : Node) (path : String)
    (e : Err) (hs : proot.Delete h path = (.error e, h')) : h.GrowsTo h' := by
  rw [Node.Delete_eq_parentOf] at hs
  have g := Node.parentOf_grows h proot path
  cases hp : proot.parentOf h path with
  | mk r hp1 =>
    rw [hp] at hs g
    cases r with
    | error e' =>
      simp only at hs
      rw [← (Prod.mk.inj hs).2]
      exact g
    | ok parent =>
      simp only at hs
      rw [Node.DeleteChild_error _ _ _ _ _ hs]
      exact g

/-! ## Handles and the values they denote -/

theorem stepVal_congr (h h1 : Heap) (e : h1.objs = h.objs) (v : Iface) (seg : String) :
    stepVal h1 v seg = stepVal h v seg := by
  cases v <;> simp [stepVal, Heap.cells, Heap.entries, e]

theorem walkVal_congr (h h1 : Heap) (e : h1.objs = h.objs) (v : Iface) (segs : List String) :
    walkVal h1 v segs = walkVal h v segs := by
  induction segs generalizing v with
  | nil => rfl
  | cons seg segs ih =>
    simp only [walkVal, stepVal_congr h h1 e]
    cases stepVal h v seg with
    | error e => rfl
    | ok w => exact ih w

theorem stepVal_ok_ref (h : Heap) (v w : Iface) (seg : String)
    (hs : stepVal h v seg = .ok w) :
    ∃ c o, v.ref? = some c ∧ h.objs[c]? = some o ∧ w ∈ o.slots := by
  cases v with
  | slice a off len =>
    simp only [stepVal] at hs
    split at hs
    · cases hs
    · split at hs
      · split at hs
        · rename_i w' hw
          cases hs
          have hmem : w ∈ h.cells a := List.getElem?_mem hw
          unfold Heap.cells at hmem
          cases ho : h.objs[a]? with
          | none => simp [ho] at hmem
          | some o =>
            cases o with
            | map es => simp [ho] at hmem
            | arr cs =>
              simp [ho] at hmem
              exact ⟨a, .arr cs, rfl, ho, hmem⟩
        · cases hs
      · cases hs
  | map m =>
    simp only [stepVal] at hs
    split at hs
    · rename_i w' hw
      cases hs
      have hmem := mapLookup_mem _ _ _ hw
      unfold Heap.entries at hmem
      cases ho : h.objs[m]? with
      | none => simp [ho] at hmem
      | some o =>
        cases o with
        | arr cs => simp [ho] at hmem
        | map es =>
          simp only [ho] at hmem
          exact ⟨m, .map es, rfl, ho, hmem⟩
    · cases hs
  | nil => simp [stepVal] at hs
  | bool b => simp [stepVal] at hs
  | float64 b => simp [stepVal] at hs
  | string s => simp [stepVal] at hs
  | other t => simp [stepVal] at hs

theorem Node.load_var_append (vars : List Iface) (objs : List Obj) (w : Iface) :
    Node.load { vars := vars ++ [w], objs := objs } ⟨some (.var vars.length)⟩ = .ok w := by
  simp [Node.load, Heap.deref]

theorem Node.GetChild_of_stepVal (h : Heap) (n : Node) (v w : Iface) (seg : String)
    (hv : n.load h = .ok v) (hs : stepVal h v seg = .ok w) :
    ∃ n' h1, n.GetChild h seg = (.ok n', h1) ∧ n'.load h1 = .ok w := by
  cases v with
  | slice a off len =>
    rw [Node.GetChild_slice h n seg a off len hv]
    simp only [stepVal] at hs
    cases hp : ParseInt seg 16 with
    | error e => simp [hp] at hs
    | ok i =>
      simp only [hp] at hs ⊢
      by_cases hb : 0 ≤ i ∧ i < (len : Int)
      · simp only [hb, and_self, if_true] at hs ⊢
        cases hc : (h.cells a)[off + i.toNat]? with
        | none => simp [hc] at hs
        | some w' =>
          simp only [hc, Except.ok.injEq] at hs
          subst hs
          exact ⟨_, _, rfl, by simp [Node.load, Heap.deref, hc]⟩
      · simp [hb] at hs
  | map m =>
    rw [Node.GetChild_map h n seg m hv]
    simp only [stepVal] at hs
    cases hl : mapLookup seg (h.entries m) with
    | none => simp [hl] at hs
    | some w' =>
      simp only [hl, Except.ok.injEq] at hs
      subst hs
      exact ⟨_, _, rfl, Node.load_var_append _ _ _⟩
  | nil => simp [stepVal] at hs
  | bool b => simp [stepVal] at hs
  | float64 b => simp [stepVal] at hs
  | string s => simp [stepVal] at hs
  | other t => simp [stepVal] at hs

theorem Node.stepVal_of_GetChild (h h1 : Heap) (n n' : Node) (v w : Iface) (seg : String)
    (hv : n.load h = .ok v) (hg : n.GetChild h seg = (.ok n', h1))
    (hw : n'.load h1 = .ok w) : stepVal h v seg = .ok w := by
  cases v with
  | slice a off len =>
    rw [Node.GetChild_slice h n seg a off len hv] at hg
    simp only [stepVal]
    cases hp : ParseInt seg 16 with
    | error e => simp [hp] at hg
    | ok i =>
      simp only [hp] at hg ⊢
      by_cases hb : 0 ≤ i ∧ i < (len : Int)
      · simp only [hb, and_self, if_true, Prod.mk.injEq, Except.ok.injEq] at hg ⊢
        obtain ⟨hn, hh⟩ := hg
        subst hn hh
        simp only [Node.load, Heap.deref] at hw
        cases hc : (h.cells a)[off + i.toNat]? with
        | none => simp [hc] at hw
        | some w' =>
          simp only [hc, Except.ok.injEq] at hw
          rw [hw]
      · simp [hb] at hg
  | map m =>
    rw [Node.GetChild_map h n seg m hv] at hg
    simp only [stepVal]
    cases hl : mapLookup seg (h.entries m) with
    | none => simp [hl] at hg
    | some w' =>
      simp only [hl, Prod.mk.injEq, Except.ok.injEq] at hg ⊢
      obtain ⟨hn, hh⟩ := hg
      subst hn hh
      rw [Node.load_var_append] at hw
      exact Except.ok.inj hw
  | nil => rw [Node.GetChild_leaf h n seg _ hv rfl] at hg; cases (Prod.mk.inj hg).1
  | bool b => rw [Node.GetChild_leaf h n seg _ hv rfl] at hg; cases (Prod.mk.inj hg).1
  | float64 b => rw [Node.GetChild_leaf h n seg _ hv rfl] at hg; cases (Prod.mk.inj hg).1
  | string s => rw [Node.GetChild_leaf h n seg _ hv rfl] at hg; cases (Prod.mk.inj hg).1
  | other t => rw [Node.GetChild_leaf h n seg _ hv rfl] at hg; cases (Prod.mk.inj hg).1

theorem Node.GetChild_ok_load (h h1 : Heap) (n n' : Node) (seg : String)
    (hg : n.GetChild h seg = (.ok n', h1)) : ∃ v, n.load h = .ok v := by
  cases hv : n.load h with
  | ok v => exact ⟨v, rfl⟩
  | error e =>
    rw [Node.GetChild_of_load_error h n seg e hv] at hg
    cases (Prod.mk.inj hg).1

theorem getLoop_of_walkVal (h : Heap) (n : Node) (v w : Iface) (segs : List String)
    (hv : n.load h = .ok v) (hs : walkVal h v segs = .ok w) :
    ∃ n' h1, getLoop h n segs = (.ok n', h1) ∧ n'.load h1 = .ok w := by
  induction segs generalizing h n v with
  | nil =>
    simp only [walkVal, Except.ok.injEq] at hs
    subst hs
    exact ⟨n, h, rfl, hv⟩
  | cons seg segs ih =>
    simp only [walkVal] at hs
    cases h1 : stepVal h v seg with
    | error e => simp [h1] at hs
    | ok v1 =>
      simp only [h1] at hs
      obtain ⟨n1, hp1, hg, hl⟩ := Node.GetChild_of_stepVal h n v v1 seg hv h1
      have g : h.GrowsTo hp1 := by
        have := Node.GetChild_grows h n seg
        rw [hg] at this
        exact this
      rw [← walkVal_congr h hp1 g.1] at hs
      obtain ⟨n', h2, hg2, hl2⟩ := ih hp1 n1 v1 hl hs
      exact ⟨n', h2, by simp only [getLoop, hg, hg2], hl2⟩

theorem walkVal_of_getLoop (h h1 : Heap) (n n' : Node) (v w : Iface) (segs : List String)
    (hv : n.load h = .ok v) (hg : getLoop h n segs = (.ok n', h1))
    (hw : n'.load h1 = .ok w) : walkVal h v segs = .ok w := by
  induction segs generalizing h n v with
  | nil =>
    simp only [getLoop, Prod.mk.injEq, Except.ok.injEq] at hg
    obtain ⟨hn, hh⟩ := hg
    subst hn hh
    rw [hv] at hw
    simp only [walkVal]
    exact hw
  | cons seg segs ih =>
    simp only [getLoop] at hg
    cases hc : n.GetChild h seg with
    | mk r hp1 =>
      rw [hc] at hg
      cases r with
      | error e => cases (Prod.mk.inj hg).1
      | ok n1 =>
        simp only at hg
        have g : h.GrowsTo hp1 := by
          have := Node.GetChild_grows h n seg
          rw [hc] at this
          exact this
        have hl1 : ∃ v1, n1.load hp1 = .ok v1 := by
          cases segs with
          | nil =>
            simp only [getLoop, Prod.mk.injEq, Except.ok.injEq] at hg
            obtain ⟨hn, hh⟩ := hg
            subst hn hh
            exact ⟨w, hw⟩
          | cons s2 rest =>
            simp only [getLoop] at hg
            cases hc2 : n1.GetChild hp1 s2 with
            | mk r2 hp2 =>
              rw [hc2] at hg
              cases r2 with
              | error e => cases (Prod.mk.inj hg).1
              | ok n2 => exact Node.GetChild_ok_load _ _ _ _ _ hc2
        obtain ⟨v1, hl1⟩ := hl1
        have hs := Node.stepVal_of_GetChild h hp1 n n1 v v1 seg hv hc hl1
        simp only [walkVal, hs]
        rw [← walkVal_congr h hp1 g.1]
        exact ih hp1 n1 v1 hl1 hg

/-! ## Well-formedness along a walk -/

theorem Heap.cells_mem_slots (h : Heap) (a : Nat) (v : Iface) (hv : v ∈ h.cells a) :
    ∃ cs, h.objs[a]? = some (.arr cs) ∧ v ∈ (Obj.arr cs).slots := by
  unfold Heap.cells at hv
  cases ho : h.objs[a]? with
  | none => simp [ho] at hv
  | some o =>
    cases o with
    | map es => simp [ho] at hv
    | arr cs =>
      simp only [ho] at hv
      exact ⟨cs, rfl, hv⟩

theorem Heap.entries_mem_slots (h : Heap) (m : Nat) (k : String) (v : Iface)
    (hv : mapLookup k (h.entries m) = some v) :
    ∃ es, h.objs[m]? = some (.map es) ∧ h.entries m = es ∧ v ∈ (Obj.map es).slots := by
  have hmem := mapLookup_mem _ _ _ hv
  unfold Heap.entries at hmem ⊢
  cases ho : h.objs[m]? with
  | none => simp [ho] at hmem
  | some o =>
    cases o with
    | arr cs => simp [ho] at hmem
    | map es =>
      simp only [ho] at hmem
      exact ⟨es, rfl, rfl, hmem⟩

theorem Node.load_valid (h : Heap) (hwf : h.wellFormed = true) (n : Node) (v : Iface)
    (hv : n.load h = .ok v) : v.validIn h = true := by
  obtain ⟨p, _, hd⟩ := Node.load_ok_ptr h n v hv
  cases p with
  | var id =>
    simp only [Heap.deref] at hd
    exact h.wf_vars hwf v (List.getElem?_mem hd)
  | elem a i =>
    simp only [Heap.deref] at hd
    obtain ⟨cs, ho, hm⟩ := h.cells_mem_slots a v (List.getElem?_mem hd)
    exact h.wf_slots hwf a _ ho v hm

theorem Node.GetChild_wf (h : Heap) (hwf : h.wellFormed = true) (n : Node) (seg : String) :
    (n.GetChild h seg).2.wellFormed = true := by
  cases hv : n.load h with
  | error e => rw [Node.GetChild_of_load_error h n seg e hv]; exact hwf
  | ok v =>
    cases v with
    | slice a off len =>
      rw [Node.GetChild_slice h n seg a off len hv]
      split
      · exact hwf
      · split <;> exact hwf
    | map m =>
      rw [Node.GetChild_map h n seg m hv]
      cases hl : mapLookup seg (h.entries m) with
      | none => exact hwf
      | some w =>
        simp only
        obtain ⟨es, ho, _, hm⟩ := h.entries_mem_slots m seg w hl
        have hval := h.wf_slots hwf m _ ho w hm
        refine Heap.GrowsTo.wellFormed (h := h) ⟨rfl, List.prefix_append _ _⟩ ?_ hwf
        intro x hx
        simp only [List.mem_append, List.mem_singleton] at hx
        rcases hx with hx | hx
        · exact h.wf_vars hwf x hx
        · rw [hx]; exact hval
    | nil => rw [Node.GetChild_leaf h n seg _ hv rfl]; exact hwf
    | bool b => rw [Node.GetChild_leaf h n seg _ hv rfl]; exact hwf
    | float64 b => rw [Node.GetChild_leaf h n seg _ hv rfl]; exact hwf
    | string s => rw [Node.GetChild_leaf h n seg _ hv rfl]; exact hwf
    | other t => rw [Node.GetChild_leaf h n seg _ hv rfl]; exact hwf

theorem getLoop_wf (h : Heap) (hwf : h.wellFormed = true) (n : Node) (segs : List String) :
    (getLoop h n segs).2.wellFormed = true := by
  induction segs generalizing h n with
  | nil => exact hwf
  | cons seg segs ih =>
    unfold getLoop
    have w1 := Node.GetChild_wf h hwf n seg
    cases hc : n.GetChild h seg with
    | mk r h1 =>
      rw [hc] at w1
      cases r with
      | error e => exact w1
      | ok r => exact ih h1 w1 r

theorem getLoop_ok_load (h h1 : Heap) (n n' : Node) (segs : List String) (w : Iface)
    (hg : getLoop h n segs = (.ok n', h1)) (hw : n'.load h1 = .ok w) :
    ∃ v, n.load h = .ok v := by
  cases segs with
  | nil =>
    simp only [getLoop, Prod.mk.injEq, Except.ok.injEq] at hg
    obtain ⟨hn, hh⟩ := hg
    subst hn hh
    exact ⟨w, hw⟩
  | cons seg rest =>
    simp only [getLoop] at hg
    cases hc : n.GetChild h seg with
    | mk r hp =>
      rw [hc] at hg
      cases r with
      | error e => cases (Prod.mk.inj hg).1
      | ok n1 => exact Node.GetChild_ok_load _ _ _ _ _ hc

/-! ## Writes below a walk do not disturb it -/

theorem stepVal_agree (h h' : Heap) (v : Iface) (seg : String) (c : Nat)
    (hr : v.ref? = some c) (e : h'.objs[c]? = h.objs[c]?) :
    stepVal h' v seg = stepVal h v seg := by
  cases v with
  | slice a off len =>
    simp only [Iface.ref?, Option.some.injEq] at hr
    subst hr
    simp [stepVal, Heap.cells, e]
  | map m =>
    simp only [Iface.ref?, Option.some.injEq] at hr
    subst hr
    simp [stepVal, Heap.entries, e]
  | nil => simp [Iface.ref?] at hr
  | bool b => simp [Iface.ref?] at hr
  | float64 b => simp [Iface.ref?] at hr
  | string s => simp [Iface.ref?] at hr
  | other t => simp [Iface.ref?] at hr

theorem walkVal_ref_bound (h : Heap) (hac : h.acyclic = true) (v w : Iface)
    (segs : List String) (hs : walkVal h v segs = .ok w) (c : Nat) (hc : w.ref? = some c) :
    ∃ c0, v.ref? = some c0 ∧ c ≤ c0 ∧ (segs ≠ [] → c < c0) := by
  induction segs generalizing v with
  | nil =>
    simp only [walkVal, Except.ok.injEq] at hs
    subst hs
    exact ⟨c, hc, Nat.le_refl _, fun hne => absurd rfl hne⟩
  | cons seg segs ih =>
    simp only [walkVal] at hs
    cases h1 : stepVal h v seg with
    | error e => simp [h1] at hs
    | ok v1 =>
      simp only [h1] at hs
      obtain ⟨c0, o, hr0, ho, hm⟩ := stepVal_ok_ref h v v1 seg h1
      obtain ⟨c1, hr1, hle, _⟩ := ih v1 hs
      have hlt := h.acyclic_slots hac c0 o ho v1 hm c1 hr1
      exact ⟨c0, hr0, by omega, fun _ => by omega⟩

theorem walkVal_frame (h h' : Heap) (hac : h.acyclic = true) (cp : Nat)
    (hagree : ∀ c, cp < c → h'.objs[c]? = h.objs[c]?) (v w : Iface) (segs : List String)
    (hs : walkVal h v segs = .ok w) (hc : w.ref? = some cp) :
    walkVal h' v segs = .ok w := by
  induction segs generalizing v with
  | nil => exact hs
  | cons seg segs ih =>
    simp only [walkVal] at hs ⊢
    cases h1 : stepVal h v seg with
    | error e => simp [h1] at hs
    | ok v1 =>
      simp only [h1] at hs
      obtain ⟨c0, o, hr0, ho, hm⟩ := stepVal_ok_ref h v v1 seg h1
      obtain ⟨c1, hr1, hle, _⟩ := walkVal_ref_bound h hac v1 w segs hs cp hc
      have hlt := h.acyclic_slots hac c0 o ho v1 hm c1 hr1
      rw [stepVal_agree h h' v seg c0 hr0 (hagree c0 (by omega)), h1]
      exact ih v1 hs

theorem Node.load_frame (h h' : Heap) (hac : h.acyclic = true) (cp : Nat)
    (hvars : ∀ (id : Nat) (v : Iface), h.vars[id]? = some v → h'.vars[id]? = some v)
    (hagree : ∀ c, cp < c → h'.objs[c]? = h.objs[c]?) (n : Node) (v : Iface)
    (hv : n.load h = .ok v) (c0 : Nat) (hr : v.ref? = some c0) (hle : cp ≤ c0) :
    n.load h' = .ok v := by
  obtain ⟨p, hp, hd⟩ := Node.load_ok_ptr h n v hv
  cases p with
  | var id =>
    simp only [Heap.deref] at hd
    simp only [Node.load, hp, Heap.deref, hvars id v hd]
  | elem a i =>
    simp only [Heap.deref] at hd
    obtain ⟨cs, ho, hm⟩ := h.cells_mem_slots a v (List.getElem?_mem hd)
    have hlt := h.acyclic_slots hac a _ ho v hm c0 hr
    have e : h'.cells a = h.cells a := Heap.cells_congr h h' a (hagree a (by omega))
    simp only [Node.load, hp, Heap.deref, e, hd]

/-- After a write confined to containers numbered at most `cp`, the one a handle reached by
`segs` denotes, the same segments resolve again from the root, to a handle on the same
container value. -/
theorem getLoop_frame (h hp h2 : Heap) (hac : h.acyclic = true)
    (root n : Node) (segs : List String) (pv : Iface) (cp : Nat)
    (hg : getLoop h root segs = (.ok n, hp)) (hpv : n.load hp = .ok pv)
    (hr : pv.ref? = some cp)
    (hvars : ∀ (id : Nat) (v : Iface), h.vars[id]? = some v → h2.vars[id]? = some v)
    (hagree : ∀ c, cp < c → h2.objs[c]? = hp.objs[c]?) :
    ∃ n' hp', getLoop h2 root segs = (.ok n', hp') ∧ n'.load hp' = .ok pv ∧
      h2.GrowsTo hp' := by
  have g : h.GrowsTo hp := by
    have := getLoop_grows h root segs
    rw [hg] at this
    exact this
  obtain ⟨v0, hv0⟩ := getLoop_ok_load _ _ _ _ _ _ hg hpv
  have hw := walkVal_of_getLoop h hp root n v0 pv _ hv0 hg hpv
  obtain ⟨c0, hr0, hle, _⟩ := walkVal_ref_bound h hac v0 pv _ hw cp hr
  have hagree' : ∀ c, cp < c → h2.objs[c]? = h.objs[c]? := by
    intro c hc
    rw [hagree c hc, g.1]
  have hw2 := walkVal_frame h h2 hac cp hagree' v0 pv _ hw hr
  have hl2 := Node.load_frame h h2 hac cp hvars hagree' root v0 hv0 c0 hr0 hle
  obtain ⟨n', hp', hg', hl'⟩ := getLoop_of_walkVal h2 root v0 pv _ hl2 hw2
  refine ⟨n', hp', hg', hl', ?_⟩
  have := getLoop_grows h2 root segs
  rw [hg'] at this
  exact this

/-- The parent path of `path` resolves again after a write confined to containers numbered
at most the one the parent handle denotes. -/
theorem Node.parentOf_frame (h hp h2 : Heap) (hac : h.acyclic = true)
    (root parent : Node) (path : String) (pv : Iface) (cp : Nat)
    (hpar : root.parentOf h path = (.ok parent, hp)) (hpv : parent.load hp = .ok pv)
    (hr : pv.ref? = some cp)
    (hvars : ∀ (id : Nat) (v : Iface), h.vars[id]? = some v → h2.vars[id]? = some v)
    (hagree : ∀ c, cp < c → h2.objs[c]? = hp.objs[c]?) :
    ∃ parent' hp', root.parentOf h2 path = (.ok parent', hp') ∧ parent'.load hp' = .ok pv ∧
      h2.GrowsTo hp' := by
  rw [Node.parentOf_eq_getLoop] at hpar ⊢
  exact getLoop_frame h hp h2 hac root parent _ pv cp hpar hpv hr hvars hagree

/-! ## Paths below a scalar -/

theorem Iface.ref?_of_isScalar (v : Iface) (hs : v.isScalar = true) : v.ref? = none := by
  cases v <;> simp [Iface.isScalar] at hs <;> rfl

theorem getLoop_leaf (h : Heap) (n : Node) (v : Iface) (seg : String) (segs : List String)
    (hv : n.load h = .ok v) (hr : v.ref? = none) :
    getLoop h n (seg :: segs) = (.error .leafNode, h) := by
  simp only [getLoop, Node.GetChild_leaf h n seg v hv hr]

theorem Split_dropLast_append_dot (q s : String) :
    (Split (q ++ "." ++ s)).dropLast = Split q ++ (Split s).dropLast := by
  rw [Split_append_dot, List.dropLast_append_of_ne_nil _ (Split_ne_nil s)]

/-! ## Claims -/

/-- C1 (defect in the code): on the document `{"a":{"b":[1,99,3]},"c":"x"}`,
`Delete("a.b.0")` returns no error, yet `a.b` read from the root afterwards is still an
array of length 3, with elements `[99,3,3]` and not `[99,3]`: the elements were shifted in
the shared backing array, but the shortened slice was stored into the local copy that
`GetChild` made of the object member, not into the object. -/
theorem Delete_under_object_key_keeps_length :
    (rootNode.Delete exDoc99 "a.b.0").1 = .ok () ∧
      rootNode.valueAt (rootNode.Delete exDoc99 "a.b.0").2 "a.b" = .ok (.slice 0 0 3) ∧
      (rootNode.Delete exDoc99 "a.b.0").2.elems (.slice 0 0 3) = [f99, f3, f3] := by
  decide

/-- C3: when the parent path of `path` resolves to an object that lacks the terminal
segment as a key, `Set` fails with the key-not-found error for that segment, and the store
it leaves has every container (so the object's keys and member values) exactly as before;
only handles were allocated. -/
theorem Set_never_inserts (h hp : Heap) (root parent : Node) (path : String) (X : Iface)
    (m : Nat) (hpar : root.parentOf h path = (.ok parent, hp))
    (hobj : parent.Value hp = .ok (.map m))
    (habs : mapLookup (childPathOf path) (hp.entries m) = none) :
    root.Set h path X = (.error (.keyNotFound (childPathOf path)), hp) ∧
      hp.objs = h.objs ∧ h.vars <+: hp.vars ∧ hp.entries m = h.entries m := by
  have g : h.GrowsTo hp := by
    have := Node.parentOf_grows h root path
    rw [hpar] at this
    exact this
  refine ⟨?_, g.1, g.2, g.entries m⟩
  rw [Node.Set_eq_parentOf, hpar]
  simp only
  rw [Node.SetChild_map hp parent _ X m hobj, habs]

theorem Set_never_inserts_witness :
    (rootNode.parentOf exDoc "a.newkey" = (.ok ⟨some (.var 1)⟩, ⟨[.map 2, .map 1], exDoc.objs⟩) ∧
      Node.Value ⟨[.map 2, .map 1], exDoc.objs⟩ ⟨some (.var 1)⟩ = .ok (.map 1) ∧
      mapLookup (childPathOf "a.newkey") (Heap.entries ⟨[.map 2, .map 1], exDoc.objs⟩ 1) = none) ∧
    (rootNode.Set exDoc "a.newkey" f99 =
        (.error (.keyNotFound (childPathOf "a.newkey")), ⟨[.map 2, .map 1], exDoc.objs⟩) ∧
      (⟨[.map 2, .map 1], exDoc.objs⟩ : Heap).objs = exDoc.objs ∧
      exDoc.vars <+: (⟨[.map 2, .map 1], exDoc.objs⟩ : Heap).vars ∧
      Heap.entries ⟨[.map 2, .map 1], exDoc.objs⟩ 1 = exDoc.entries 1) :=
  ⟨by decide,
    Set_never_inserts exDoc ⟨[.map 2, .map 1], exDoc.objs⟩ rootNode ⟨some (.var 1)⟩ "a.newkey"
      f99 1 (by decide) (by decide) (by decide)⟩

/-- C4: if `Set` or `Delete` fails, by a returned error or by a run-time panic, the store
it leaves has every container and every variable that existed before the call with
unchanged content; the only difference is handles allocated while resolving the path. -/
theorem Set_Delete_atomic_on_failure (h h' : Heap) (root : Node) (path : String) (X : Iface)
    (e : Err)
    (hfail : root.Set h path X = (.error e, h') ∨ root.Delete h path = (.error e, h')) :
    h'.objs = h.objs ∧ h.vars <+: h'.vars := by
  rcases hfail with hs | hd
  · exact Node.Set_error_grows h h' root path X e hs
  · exact Node.Delete_error_grows h h' root path e hd

theorem Set_Delete_atomic_on_failure_witness :
    (rootNode.Set exDoc "a.b.7" f99 = (.error .panicIndex, ⟨[.map 2, .map 1, .slice 0 0 3], exDoc.objs⟩) ∨
      rootNode.Delete exDoc "a.b.7" = (.error .panicIndex, ⟨[.map 2, .map 1, .slice 0 0 3], exDoc.objs⟩)) ∧
    ((⟨[.map 2, .map 1, .slice 0 0 3], exDoc.objs⟩ : Heap).objs = exDoc.objs ∧
      exDoc.vars <+: (⟨[.map 2, .map 1, .slice 0 0 3], exDoc.objs⟩ : Heap).vars) :=
  ⟨Or.inl (by decide),
    Set_Delete_atomic_on_failure exDoc ⟨[.map 2, .map 1, .slice 0 0 3], exDoc.objs⟩ rootNode
      "a.b.7" f99 .panicIndex (Or.inl (by decide))⟩

/-- C5 (defect in the code): on the document `[1,2,3]`, `Get("5")` panics with an index out
of range, but `Delete("5")` returns no error and shortens the array to `[1,2]`: the array
branch of `DeleteChild` never indexes with the parsed index itself, so an index past the
end is not rejected. -/
theorem Delete_index_past_end_not_rejected :
    (rootNode.Get arrDoc "5").1 = .error .panicIndex ∧
      (rootNode.Delete arrDoc "5").1 = .ok () ∧
      rootNode.Value (rootNode.Delete arrDoc "5").2 = .ok (.slice 0 0 2) ∧
      (rootNode.Delete arrDoc "5").2.elems (.slice 0 0 2) = [f1, f2] := by
  decide

/-- C7: when `Get(root, Q)` yields null, a bool, a number or a string, then for every
continuation `s` the operations `Get`, `Set` and `Delete` at `Q + "." + s` all fail with
the leaf-node error. -/
theorem leaf_traversal_fails (h h1 : Heap) (root n : Node) (Q s : String) (X v : Iface)
    (hget : root.Get h Q = (.ok n, h1)) (hv : n.Value h1 = .ok v)
    (hleaf : v.isScalar = true) :
    (root.Get h (Q ++ "." ++ s)).1 = .error .leafNode ∧
      (root.Set h (Q ++ "." ++ s) X).1 = .error .leafNode ∧
      (root.Delete h (Q ++ "." ++ s)).1 = .error .leafNode := by
  have hr := Iface.ref?_of_isScalar v hleaf
  unfold Node.Get at hget
  unfold Node.Value at hv
  refine ⟨?_, ?_, ?_⟩
  · unfold Node.Get
    rw [Split_append_dot, getLoop_append, hget]
    simp only
    cases hs : Split s with
    | nil => exact absurd hs (Split_ne_nil s)
    | cons s1 rest => rw [getLoop_leaf h1 n v s1 rest hv hr]
  · rw [Node.Set_eq_parentOf, Node.parentOf_eq_getLoop, Split_dropLast_append_dot,
      getLoop_append, hget]
    simp only
    cases hs : (Split s).dropLast with
    | nil =>
      simp only [getLoop]
      rw [Node.SetChild_leaf h1 n _ X v hv hr]
    | cons s1 rest => rw [getLoop_leaf h1 n v s1 rest hv hr]
  · rw [Node.Delete_eq_parentOf, Node.parentOf_eq_getLoop, Split_dropLast_append_dot,
      getLoop_append, hget]
    simp only
    cases hs : (Split s).dropLast with
    | nil =>
      simp only [getLoop]
      rw [Node.DeleteChild_leaf h1 n _ v hv hr]
    | cons s1 rest => rw [getLoop_leaf h1 n v s1 rest hv hr]

theorem leaf_traversal_fails_witness :
    (rootNode.Get exDoc "c" = (.ok ⟨some (.var 1)⟩, ⟨[.map 2, .string "x"], exDoc.objs⟩) ∧
      Node.Value ⟨[.map 2, .string "x"], exDoc.objs⟩ ⟨some (.var 1)⟩ = .ok (.string "x") ∧
      (Iface.string "x").isScalar = true) ∧
    ((rootNode.Get exDoc ("c" ++ "." ++ "d")).1 = .error .leafNode ∧
      (rootNode.Set exDoc ("c" ++ "." ++ "d") f99).1 = .error .leafNode ∧
      (rootNode.Delete exDoc ("c" ++ "." ++ "d")).1 = .error .leafNode) :=
  ⟨by decide,
    leaf_traversal_fails exDoc ⟨[.map 2, .string "x"], exDoc.objs⟩ rootNode ⟨some (.var 1)⟩
      "c" "d" f99 (.string "x") (by decide) (by decide) (by decide)⟩

/-- C8 (defect in the code): for the decoded document `null`, `Type()` returns `TypeUnknown`
(0) and not `TypeNull` (1): the type switch has no case for the nil interface, although
the constant `TypeNull` is declared "for json null". -/
theorem Type_of_null_is_TypeUnknown :
    rootNode.Value nullDoc = .ok .nil ∧ rootNode.TypeOf nullDoc = .ok TypeUnknown ∧
      rootNode.TypeOf nullDoc ≠ .ok TypeNull := by
  decide

/-- C10 (defect in the code): on the document `{"a":[1]}`, `Delete("a.0")` returns no error,
yet `a` read from the root afterwards is still an array of length 1 holding `1`, not the
empty array: the shortened slice was stored into the local copy of the object member. -/
theorem Delete_last_element_under_object_key_keeps_it :
    (rootNode.Delete oneDoc "a.0").1 = .ok () ∧
      rootNode.valueAt (rootNode.Delete oneDoc "a.0").2 "a" = .ok (.slice 0 0 1) ∧
      (rootNode.Delete oneDoc "a.0").2.elems (.slice 0 0 1) = [f1] := by
  decide

/-! ## Maps -/

theorem prefix_getElem? {α : Type} (l1 l2 : List α) (hp : l1 <+: l2) (i : Nat) (v : α)
    (hv : l1[i]? = some v) : l2[i]? = some v := by
  obtain ⟨t, ht⟩ := hp
  rw [← ht, List.getElem?_append_left (getElem?_lt_length _ _ _ hv), hv]

theorem mapLookup_mapAssign_self (k : String) (v : Iface) (es : List (String × Iface)) :
    mapLookup k (mapAssign k v es) = some v := by
  induction es with
  | nil => simp [mapAssign, mapLookup]
  | cons e es ih =>
    obtain ⟨k', v'⟩ := e
    by_cases hk : k' = k
    · simp [mapAssign, mapLookup, hk]
    · simp [mapAssign, mapLookup, hk, ih]

theorem mapLookup_mapAssign_ne (k k2 : String) (v : Iface) (es : List (String × Iface))
    (hne : k2 ≠ k) : mapLookup k2 (mapAssign k v es) = mapLookup k2 es := by
  induction es with
  | nil => simp [mapAssign, mapLookup, Ne.symm hne]
  | cons e es ih =>
    obtain ⟨k', v'⟩ := e
    by_cases hk : k' = k
    · subst hk
      simp [mapAssign, mapLookup, Ne.symm hne]
    · by_cases hk2 : k' = k2
      · subst hk2
        simp [mapAssign, mapLookup, hk]
      · simp [mapAssign, mapLookup, hk, hk2, ih]

theorem mapAssign_keys (k : String) (v w : Iface) (es : List (String × Iface))
    (hl : mapLookup k es = some w) : (mapAssign k v es).map Prod.fst = es.map Prod.fst := by
  induction es with
  | nil => simp [mapLookup] at hl
  | cons e es ih =>
    obtain ⟨k', v'⟩ := e
    by_cases hk : k' = k
    · simp [mapAssign, hk]
    · simp only [mapLookup, if_neg hk] at hl
      simp [mapAssign, hk, ih hl]

theorem mapLookup_eq_none_of_not_mem (k : String) (es : List (String × Iface))
    (hk : k ∉ es.map Prod.fst) : mapLookup k es = none := by
  induction es with
  | nil => rfl
  | cons e es ih =>
    obtain ⟨k', v'⟩ := e
    simp only [List.map_cons, List.mem_cons, not_or] at hk
    simp [mapLookup, Ne.symm hk.1, ih hk.2]

theorem mapLookup_mapDelete_self (k : String) (es : List (String × Iface))
    (hn : (es.map Prod.fst).Nodup) : mapLookup k (mapDelete k es) = none := by
  induction es with
  | nil => rfl
  | cons e es ih =>
    obtain ⟨k', v'⟩ := e
    simp only [List.map_cons, List.nodup_cons] at hn
    by_cases hk : k' = k
    · subst hk
      simp only [mapDelete, if_true]
      exact mapLookup_eq_none_of_not_mem _ _ hn.1
    · simp [mapDelete, mapLookup, hk, ih hn.2]

theorem mapLookup_mapDelete_ne (k k2 : String) (es : List (String × Iface)) (hne : k2 ≠ k) :
    mapLookup k2 (mapDelete k es) = mapLookup k2 es := by
  induction es with
  | nil => rfl
  | cons e es ih =>
    obtain ⟨k', v'⟩ := e
    by_cases hk : k' = k
    · subst hk
      simp [mapDelete, mapLookup, Ne.symm hne]
    · by_cases hk2 : k' = k2
      · subst hk2
        simp [mapDelete, mapLookup, hk]
      · simp [mapDelete, mapLookup, hk, hk2, ih]

theorem mapDelete_length (k : String) (v : Iface) (es : List (String × Iface))
    (hl : mapLookup k es = some v) : (mapDelete k es).length + 1 = es.length := by
  induction es with
  | nil => simp [mapLookup] at hl
  | cons e es ih =>
    obtain ⟨k', v'⟩ := e
    by_cases hk : k' = k
    · simp [mapDelete, hk]
    · simp only [mapLookup, if_neg hk] at hl
      simp [mapDelete, hk, ih hl]

theorem Node.parentOf_wf (h : Heap) (hwf : h.wellFormed = true) (root : Node) (path : String) :
    (root.parentOf h path).2.wellFormed = true := by
  rw [Node.parentOf_eq_getLoop]
  exact getLoop_wf h hwf root _

/-- C2: in a well-formed, acyclic store (as any decoded document is), if `Get(root, path)`
succeeds then for every value `X` the call `Set(root, path, X)` returns no error, and a
following `Get(root, path)` succeeds with a handle whose `Value()` is `X`. -/
theorem Get_Set_inverse (h h1 : Heap) (root n : Node) (path : String) (X : Iface)
    (hwf : h.wellFormed = true) (hac : h.acyclic = true)
    (hget : root.Get h path = (.ok n, h1)) :
    ∃ h2, root.Set h path X = (.ok (), h2) ∧
      ∃ n' h3, root.Get h2 path = (.ok n', h3) ∧ n'.Value h3 = .ok X := by
  rw [Node.Get_eq_parentOf] at hget
  have g := Node.parentOf_grows h root path
  have hwfp := Node.parentOf_wf h hwf root path
  cases hpar : root.parentOf h path with
  | mk r hp =>
    rw [hpar] at hget g hwfp
    cases r with
    | error e => cases (Prod.mk.inj hget).1
    | ok parent =>
      simp only at hget g hwfp
      obtain ⟨pv, hpv⟩ := Node.GetChild_ok_load _ _ _ _ _ hget
      have hval := Node.load_valid hp hwfp parent pv hpv
      have hvars : ∀ (h2 : Heap), h2.vars = hp.vars →
          ∀ (id : Nat) (v : Iface), h.vars[id]? = some v → h2.vars[id]? = some v := by
        intro h2 e id v hv
        rw [e]
        exact prefix_getElem? _ _ g.2 id v hv
      cases pv with
      | slice a off len =>
        rw [Node.GetChild_slice hp parent _ a off len hpv] at hget
        cases hpi : ParseInt (childPathOf path) 16 with
        | error e =>
          rw [hpi] at hget
          cases (Prod.mk.inj hget).1
        | ok i =>
          rw [hpi] at hget
          by_cases hb : 0 ≤ i ∧ i < (len : Int)
          · obtain ⟨cs, ho, hcells, hbound⟩ := hp.cells_of_valid a off len hval
            refine ⟨hp.setCells a ((hp.cells a).set (off + i.toNat) X), ?_, ?_⟩
            · rw [Node.Set_eq_parentOf, hpar]
              simp only
              rw [Node.SetChild_slice hp parent _ X a off len hpv, hpi]
              simp only [hb, and_self, if_true]
            · obtain ⟨parent', hp', hpar', hl', g'⟩ :=
                Node.parentOf_frame h hp (hp.setCells a ((hp.cells a).set (off + i.toNat) X))
                  hac root parent path _ a hpar hpv rfl
                  (hvars _ (Heap.setCells_vars _ _ _))
                  (fun c hc => Heap.setCells_objs_ne hp a c _ (by omega))
              refine ⟨⟨some (.elem a (off + i.toNat))⟩, hp', ?_, ?_⟩
              · rw [Node.Get_eq_parentOf, hpar']
                simp only
                rw [Node.GetChild_slice hp' parent' _ a off len hl', hpi]
                simp only [hb, and_self, if_true]
              · have hlt : off + i.toNat < cs.length := by omega
                simp only [Node.Value, Node.load, Heap.deref, g'.cells,
                  Heap.cells_setCells hp a _ cs ho, hcells]
                rw [List.getElem?_set_self hlt]
          · simp only [if_neg hb] at hget
            cases (Prod.mk.inj hget).1
      | map m =>
        rw [Node.GetChild_map hp parent _ m hpv] at hget
        cases hl : mapLookup (childPathOf path) (hp.entries m) with
        | none =>
          rw [hl] at hget
          cases (Prod.mk.inj hget).1
        | some w =>
          obtain ⟨es, ho, hes⟩ := hp.entries_of_valid m hval
          refine ⟨hp.setEntries m (mapAssign (childPathOf path) X (hp.entries m)), ?_, ?_⟩
          · rw [Node.Set_eq_parentOf, hpar]
            simp only
            rw [Node.SetChild_map hp parent _ X m hpv, hl]
          · obtain ⟨parent', hp', hpar', hl', g'⟩ :=
              Node.parentOf_frame h hp
                (hp.setEntries m (mapAssign (childPathOf path) X (hp.entries m)))
                hac root parent path _ m hpar hpv rfl
                (hvars _ (Heap.setEntries_vars _ _ _))
                (fun c hc => Heap.setEntries_objs_ne hp m c _ (by omega))
            refine ⟨⟨some (.var hp'.vars.length)⟩, { hp' with vars := hp'.vars ++ [X] }, ?_,
              Node.load_var_append _ _ X⟩
            rw [Node.Get_eq_parentOf, hpar']
            simp only
            rw [Node.GetChild_map hp' parent' _ m hl', g'.entries,
              Heap.entries_setEntries hp m _ es ho, mapLookup_mapAssign_self]
      | nil => rw [Node.GetChild_leaf hp parent _ _ hpv rfl] at hget; cases (Prod.mk.inj hget).1
      | bool b => rw [Node.GetChild_leaf hp parent _ _ hpv rfl] at hget; cases (Prod.mk.inj hget).1
      | float64 b =>
        rw [Node.GetChild_leaf hp parent _ _ hpv rfl] at hget; cases (Prod.mk.inj hget).1
      | string s =>
        rw [Node.GetChild_leaf hp parent _ _ hpv rfl] at hget; cases (Prod.mk.inj hget).1
      | other t =>
        rw [Node.GetChild_leaf hp parent _ _ hpv rfl] at hget; cases (Prod.mk.inj hget).1

theorem Get_Set_inverse_witness :
    (exDoc.wellFormed = true ∧ exDoc.acyclic = true ∧
      rootNode.Get exDoc "a.b.1" =
        (.ok ⟨some (.elem 0 1)⟩, ⟨[.map 2, .map 1, .slice 0 0 3], exDoc.objs⟩)) ∧
    ∃ h2, rootNode.Set exDoc "a.b.1" f99 = (.ok (), h2) ∧
      ∃ n' h3, rootNode.Get h2 "a.b.1" = (.ok n', h3) ∧ n'.Value h3 = .ok f99 :=
  ⟨by decide,
    Get_Set_inverse exDoc ⟨[.map 2, .map 1, .slice 0 0 3], exDoc.objs⟩ rootNode
      ⟨some (.elem 0 1)⟩ "a.b.1" f99 (by decide) (by decide) (by decide)⟩

/-- C9: in a well-formed, acyclic store, when the parent path resolves to an object: if the
object contains the terminal key, `Delete` returns no error, afterwards `Get` at the same
path fails with key not found, and the object, reached again from the root, has exactly
one member fewer while every other key maps to the value it had; if the key is absent,
`Delete` fails with key not found. -/
theorem Delete_object_key (h hp : Heap) (root parent : Node) (path : String) (m : Nat)
    (hwf : h.wellFormed = true) (hac : h.acyclic = true)
    (hpar : root.parentOf h path = (.ok parent, hp))
    (hobj : parent.Value hp = .ok (.map m)) :
    (∀ v, mapLookup (childPathOf path) (h.entries m) = some v →
      ∃ h2, root.Delete h path = (.ok (), h2) ∧
        (root.Get h2 path).1 = .error (.keyNotFound (childPathOf path)) ∧
        ∃ parent' hp', root.parentOf h2 path = (.ok parent', hp') ∧
          parent'.Value hp' = .ok (.map m) ∧
          (hp'.entries m).length + 1 = (h.entries m).length ∧
          ∀ k, k ≠ childPathOf path →
            mapLookup k (hp'.entries m) = mapLookup k (h.entries m)) ∧
    (mapLookup (childPathOf path) (h.entries m) = none →
      (root.Delete h path).1 = .error (.keyNotFound (childPathOf path))) := by
  have g : h.GrowsTo hp := by
    have := Node.parentOf_grows h root path
    rw [hpar] at this
    exact this
  have hwfp : hp.wellFormed = true := by
    have := Node.parentOf_wf h hwf root path
    rw [hpar] at this
    exact this
  have hval := Node.load_valid hp hwfp parent _ hobj
  obtain ⟨es, ho, hes⟩ := hp.entries_of_valid m hval
  have hnd := hp.wf_keys hwfp m es ho
  have hent : hp.entries m = h.entries m := g.entries m
  constructor
  · intro v hl
    rw [← hent] at hl
    refine ⟨hp.setEntries m (mapDelete (childPathOf path) (hp.entries m)), ?_, ?_⟩
    · rw [Node.Delete_eq_parentOf, hpar]
      simp only
      rw [Node.DeleteChild_map hp parent _ m hobj, hl]
    · obtain ⟨parent', hp', hpar', hl', g'⟩ :=
        Node.parentOf_frame h hp (hp.setEntries m (mapDelete (childPathOf path) (hp.entries m)))
          hac root parent path _ m hpar hobj rfl
          (fun id v hv => by
            rw [Heap.setEntries_vars]
            exact prefix_getElem? _ _ g.2 id v hv)
          (fun c hc => Heap.setEntries_objs_ne hp m c _ (by omega))
      have hent' : hp'.entries m = mapDelete (childPathOf path) es := by
        rw [g'.entries, Heap.entries_setEntries hp m _ es ho, hes]
      refine ⟨?_, parent', hp', hpar', hl', ?_, ?_⟩
      · rw [Node.Get_eq_parentOf, hpar']
        simp only
        rw [Node.GetChild_map hp' parent' _ m hl', hent',
          mapLookup_mapDelete_self _ _ hnd]
      · rw [hent', ← hent, hes]
        rw [hes] at hl
        exact mapDelete_length _ v es hl
      · intro k hk
        rw [hent', ← hent, hes]
        exact mapLookup_mapDelete_ne _ k es hk
  · intro hl
    rw [← hent] at hl
    rw [Node.Delete_eq_parentOf, hpar]
    simp only
    rw [Node.DeleteChild_map hp parent _ m hobj, hl]

theorem Delete_object_key_witness :
    (exDoc.wellFormed = true ∧ exDoc.acyclic = true ∧
      rootNode.parentOf exDoc "a.b" = (.ok ⟨some (.var 1)⟩, ⟨[.map 2, .map 1], exDoc.objs⟩) ∧
      Node.Value ⟨[.map 2, .map 1], exDoc.objs⟩ ⟨some (.var 1)⟩ = .ok (.map 1)) ∧
    ((∀ v, mapLookup (childPathOf "a.b") (exDoc.entries 1) = some v →
      ∃ h2, rootNode.Delete exDoc "a.b" = (.ok (), h2) ∧
        (rootNode.Get h2 "a.b").1 = .error (.keyNotFound (childPathOf "a.b")) ∧
        ∃ parent' hp', rootNode.parentOf h2 "a.b" = (.ok parent', hp') ∧
          parent'.Value hp' = .ok (.map 1) ∧
          (hp'.entries 1).length + 1 = (exDoc.entries 1).length ∧
          ∀ k, k ≠ childPathOf "a.b" →
            mapLookup k (hp'.entries 1) = mapLookup k (exDoc.entries 1)) ∧
    (mapLookup (childPathOf "a.b") (exDoc.entries 1) = none →
      (rootNode.Delete exDoc "a.b").1 = .error (.keyNotFound (childPathOf "a.b")))) :=
  ⟨by decide,
    Delete_object_key exDoc ⟨[.map 2, .map 1], exDoc.objs⟩ rootNode ⟨some (.var 1)⟩ "a.b" 1
      (by decide) (by decide) (by decide) (by decide)⟩

/-! ## `Set` against `Get` -/

theorem Node.SetChild_ok_iff_GetChild_ok (h : Heap) (p : Node) (seg : String) (X : Iface) :
    (∃ h2, p.SetChild h seg X = (.ok (), h2)) ↔ (∃ n h1, p.GetChild h seg = (.ok n, h1)) := by
  cases hv : p.load h with
  | error e =>
    rw [Node.SetChild_of_load_error h p seg X e hv, Node.GetChild_of_load_error h p seg e hv]
    simp
  | ok v =>
    cases v with
    | slice a off len =>
      rw [Node.SetChild_slice h p seg X a off len hv, Node.GetChild_slice h p seg a off len hv]
      cases hpi : ParseInt seg 16 with
      | error e => simp
      | ok i =>
        by_cases hb : 0 ≤ i ∧ i < (len : Int)
        · simp only [hb, and_self, if_true]
          exact ⟨fun _ => ⟨_, _, rfl⟩, fun _ => ⟨_, rfl⟩⟩
        · simp only [if_neg hb]
          simp
    | map m =>
      rw [Node.SetChild_map h p seg X m hv, Node.GetChild_map h p seg m hv]
      cases hl : mapLookup seg (h.entries m) with
      | none => simp
      | some w =>
        simp only
        exact ⟨fun _ => ⟨_, _, rfl⟩, fun _ => ⟨_, rfl⟩⟩
    | nil =>
      rw [Node.SetChild_leaf h p seg X _ hv rfl, Node.GetChild_leaf h p seg _ hv rfl]
      simp
    | bool b =>
      rw [Node.SetChild_leaf h p seg X _ hv rfl, Node.GetChild_leaf h p seg _ hv rfl]
      simp
    | float64 b =>
      rw [Node.SetChild_leaf h p seg X _ hv rfl, Node.GetChild_leaf h p seg _ hv rfl]
      simp
    | string s =>
      rw [Node.SetChild_leaf h p seg X _ hv rfl, Node.GetChild_leaf h p seg _ hv rfl]
      simp
    | other t =>
      rw [Node.SetChild_leaf h p seg X _ hv rfl, Node.GetChild_leaf h p seg _ hv rfl]
      simp

/-- C17: for every store, root, path and value, `Set(root, path, X)` returns no error if
and only if `Get(root, path)` succeeds on the store as it was before the call. -/
theorem Set_ok_iff_Get_ok (h : Heap) (root : Node) (path : String) (X : Iface) :
    (∃ h2, root.Set h path X = (.ok (), h2)) ↔ (∃ n h1, root.Get h path = (.ok n, h1)) := by
  rw [Node.Set_eq_parentOf, Node.Get_eq_parentOf]
  cases hpar : root.parentOf h path with
  | mk r hp =>
    cases r with
    | error e => simp
    | ok parent => exact Node.SetChild_ok_iff_GetChild_ok hp parent _ X

/-! ## What a successful `Set` changes -/

theorem Heap.cells_setCells_eq (h : Heap) (a : Nat) (cs : List Iface)
    (hne : h.cells a ≠ []) : (h.setCells a cs).cells a = cs := by
  cases ho : h.objs[a]? with
  | none => simp [Heap.cells, ho] at hne
  | some o =>
    cases o with
    | map es => simp [Heap.cells, ho] at hne
    | arr cs0 => exact h.cells_setCells a cs cs0 ho

theorem Heap.entries_setEntries_eq (h : Heap) (m : Nat) (es : List (String × Iface))
    (hne : h.entries m ≠ []) : (h.setEntries m es).entries m = es := by
  cases ho : h.objs[m]? with
  | none => simp [Heap.entries, ho] at hne
  | some o =>
    cases o with
    | arr cs => simp [Heap.entries, ho] at hne
    | map es0 => exact h.entries_setEntries m es es0 ho

/-- C13: after a successful `Set(root, path, X)`, with `c` the container the parent handle
denotes: every other container of the store is unchanged, every variable that existed is
unchanged, and in `c` itself an array keeps its length and all elements except the one at
the addressed index, an object keeps its list of keys and the values of all keys except
the terminal segment. -/
theorem Set_changes_only_addressed_slot (h h2 : Heap) (root : Node) (path : String)
    (X : Iface) (hset : root.Set h path X = (.ok (), h2)) :
    ∃ parent hp pv c, root.parentOf h path = (.ok parent, hp) ∧ parent.Value hp = .ok pv ∧
      pv.ref? = some c ∧ h.vars <+: h2.vars ∧
      (∀ c', c' ≠ c → h2.objs[c']? = h.objs[c']?) ∧
      ((∃ off len i, pv = .slice c off len ∧ ParseInt (childPathOf path) 16 = .ok i ∧
          0 ≤ i ∧ i < (len : Int) ∧ (h2.cells c).length = (h.cells c).length ∧
          ∀ j, j ≠ off + i.toNat → (h2.cells c)[j]? = (h.cells c)[j]?) ∨
        (pv = .map c ∧ (h2.entries c).map Prod.fst = (h.entries c).map Prod.fst ∧
          ∀ k, k ≠ childPathOf path → mapLookup k (h2.entries c) = mapLookup k (h.entries c))) := by
  rw [Node.Set_eq_parentOf] at hset
  have g := Node.parentOf_grows h root path
  cases hpar : root.parentOf h path with
  | mk r hp =>
    rw [hpar] at hset g
    cases r with
    | error e => cases (Prod.mk.inj hset).1
    | ok parent =>
      simp only at hset g
      cases hv : parent.load hp with
      | error e =>
        rw [Node.SetChild_of_load_error hp parent _ X e hv] at hset
        cases (Prod.mk.inj hset).1
      | ok pv =>
        cases pv with
        | slice a off len =>
          rw [Node.SetChild_slice hp parent _ X a off len hv] at hset
          cases hpi : ParseInt (childPathOf path) 16 with
          | error e =>
            rw [hpi] at hset
            cases (Prod.mk.inj hset).1
          | ok i =>
            rw [hpi] at hset
            by_cases hb : 0 ≤ i ∧ i < (len : Int)
            · simp only [hb, and_self, if_true, Prod.mk.injEq, true_and] at hset
              subst hset
              refine ⟨parent, hp, _, a, rfl, hv, rfl, ?_, ?_, Or.inl ⟨off, len, i, rfl, rfl,
                hb.1, hb.2, ?_, ?_⟩⟩
              · rw [Heap.setCells_vars]
                exact g.2
              · intro c' hc'
                rw [Heap.setCells_objs_ne hp a c' _ hc', g.1]
              · by_cases hne : hp.cells a = []
                · have : hp.setCells a ((hp.cells a).set (off + i.toNat) X) = hp := by
                    rw [hne]
                    simp only [List.set_nil]
                    rw [← hne, Heap.setCells_cells_self]
                  rw [this, g.cells]
                · rw [Heap.cells_setCells_eq hp a _ hne, List.length_set, g.cells]
              · intro j hj
                by_cases hne : hp.cells a = []
                · have : hp.setCells a ((hp.cells a).set (off + i.toNat) X) = hp := by
                    rw [hne]
                    simp only [List.set_nil]
                    rw [← hne, Heap.setCells_cells_self]
                  rw [this, g.cells]
                · rw [Heap.cells_setCells_eq hp a _ hne, List.getElem?_set_ne (Ne.symm hj),
                    g.cells]
            · simp only [if_neg hb] at hset
              cases (Prod.mk.inj hset).1
        | map m =>
          rw [Node.SetChild_map hp parent _ X m hv] at hset
          cases hl : mapLookup (childPathOf path) (hp.entries m) with
          | none =>
            rw [hl] at hset
            cases (Prod.mk.inj hset).1
          | some w =>
            rw [hl] at hset
            simp only [Prod.mk.injEq, true_and] at hset
            subst hset
            have hne : hp.entries m ≠ [] := by
              intro e
              rw [e] at hl
              simp [mapLookup] at hl
            refine ⟨parent, hp, _, m, rfl, hv, rfl, ?_, ?_, Or.inr ⟨rfl, ?_, ?_⟩⟩
            · rw [Heap.setEntries_vars]
              exact g.2
            · intro c' hc'
              rw [Heap.setEntries_objs_ne hp m c' _ hc', g.1]
            · rw [Heap.entries_setEntries_eq hp m _ hne, mapAssign_keys _ X w _ hl, g.entries]
            · intro k hk
              rw [Heap.entries_setEntries_eq hp m _ hne, mapLookup_mapAssign_ne _ k X _ hk,
                g.entries]
        | nil =>
          rw [Node.SetChild_leaf hp parent _ X _ hv rfl] at hset; cases (Prod.mk.inj hset).1
        | bool b =>
          rw [Node.SetChild_leaf hp parent _ X _ hv rfl] at hset; cases (Prod.mk.inj hset).1
        | float64 b =>
          rw [Node.SetChild_leaf hp parent _ X _ hv rfl] at hset; cases (Prod.mk.inj hset).1
        | string s =>
          rw [Node.SetChild_leaf hp parent _ X _ hv rfl] at hset; cases (Prod.mk.inj hset).1
        | other t =>
          rw [Node.SetChild_leaf hp parent _ X _ hv rfl] at hset; cases (Prod.mk.inj hset).1

theorem Set_changes_only_addressed_slot_witness :
    rootNode.Set exDoc "a.b.1" f99 =
        (.ok (), ⟨[.map 2, .map 1, .slice 0 0 3], exDoc99.objs⟩) ∧
    ∃ parent hp pv c, rootNode.parentOf exDoc "a.b.1" = (.ok parent, hp) ∧
      parent.Value hp = .ok pv ∧
      pv.ref? = some c ∧ exDoc.vars <+: (⟨[.map 2, .map 1, .slice 0 0 3], exDoc99.objs⟩ : Heap).vars ∧
      (∀ c', c' ≠ c →
        (⟨[.map 2, .map 1, .slice 0 0 3], exDoc99.objs⟩ : Heap).objs[c']? = exDoc.objs[c']?) ∧
      ((∃ off len i, pv = .slice c off len ∧ ParseInt (childPathOf "a.b.1") 16 = .ok i ∧
          0 ≤ i ∧ i < (len : Int) ∧
          (Heap.cells ⟨[.map 2, .map 1, .slice 0 0 3], exDoc99.objs⟩ c).length =
            (exDoc.cells c).length ∧
          ∀ j, j ≠ off + i.toNat →
            (Heap.cells ⟨[.map 2, .map 1, .slice 0 0 3], exDoc99.objs⟩ c)[j]? =
              (exDoc.cells c)[j]?) ∨
        (pv = .map c ∧
          (Heap.entries ⟨[.map 2, .map 1, .slice 0 0 3], exDoc99.objs⟩ c).map Prod.fst =
            (exDoc.entries c).map Prod.fst ∧
          ∀ k, k ≠ childPathOf "a.b.1" →
            mapLookup k (Heap.entries ⟨[.map 2, .map 1, .slice 0 0 3], exDoc99.objs⟩ c) =
              mapLookup k (exDoc.entries c))) :=
  ⟨by decide,
    Set_changes_only_addressed_slot exDoc ⟨[.map 2, .map 1, .slice 0 0 3], exDoc99.objs⟩
      rootNode "a.b.1" f99 (by decide)⟩

/-! ## Typed extraction -/

/-- C14 as stated is false: on `{"a":{"b":[1,2,3]},"c":"x"}` the call `Get("zzz")` returns
`Node{}` beside its key-not-found error, and on that node `Type()` and `Value()`
dereference the nil pointer, so `String()`, `Float()`, `Bool()`, `Array()` and `Object()`
each panic instead of returning their zero value. -/
theorem typed_extraction_panics_on_zero_node :
    rootNode.Get exDoc "zzz" = (.error (.keyNotFound "zzz"), exDoc) ∧
      Node.returned (rootNode.Get exDoc "zzz").1 = some ⟨none⟩ ∧
      Node.TypeOf exDoc ⟨none⟩ = .error .panicNil ∧
      Node.Value exDoc ⟨none⟩ = .error .panicNil ∧
      Node.StringOf exDoc ⟨none⟩ = .error .panicNil ∧
      Node.FloatOf exDoc ⟨none⟩ = .error .panicNil ∧
      Node.BoolOf exDoc ⟨none⟩ = .error .panicNil ∧
      Node.ArrayOf exDoc ⟨none⟩ = .error .panicNil ∧
      Node.ObjectOf exDoc ⟨none⟩ = .error .panicNil := by
  decide

/-- C14, amended: for every node whose pointer is not nil, with `v` the value it points
to: `String()`, `Float()`, `Bool()`, `Array()` and `Object()` each return the payload of
`v` when `v` has the matching kind, and otherwise return `""`, `0`, `false`, the nil slice
and the nil map, without failing. -/
theorem typed_extraction_soft (h : Heap) (node : Node) (v : Iface)
    (hv : node.Value h = .ok v) :
    node.StringOf h = .ok v.stringOr ∧ node.FloatOf h = .ok v.floatOr ∧
      node.BoolOf h = .ok v.boolOr ∧ node.ArrayOf h = .ok v.sliceOr ∧
      node.ObjectOf h = .ok v.mapOr := by
  have hl : node.load h = .ok v := hv
  unfold Node.StringOf Node.FloatOf Node.BoolOf Node.ArrayOf Node.ObjectOf Node.TypeOf
  rw [hv, hl]
  cases v <;> simp [typeSwitch, TypeString, TypeFloat, TypeBool, TypeArray, TypeObject,
    Iface.stringOr, Iface.floatOr, Iface.boolOr, Iface.sliceOr, Iface.mapOr]

theorem typed_extraction_soft_witness :
    rootNode.Value exDoc = .ok (.map 2) ∧
    (rootNode.StringOf exDoc = .ok (Iface.map 2).stringOr ∧
      rootNode.FloatOf exDoc = .ok (Iface.map 2).floatOr ∧
      rootNode.BoolOf exDoc = .ok (Iface.map 2).boolOr ∧
      rootNode.ArrayOf exDoc = .ok (Iface.map 2).sliceOr ∧
      rootNode.ObjectOf exDoc = .ok (Iface.map 2).mapOr) :=
  ⟨by decide, typed_extraction_soft exDoc rootNode (.map 2) (by decide)⟩

/-! ## Kinds of variables are stable -/

theorem Node.SetChild_vars (h : Heap) (p : Node) (seg : String) (X : Iface) :
    (p.SetChild h seg X).2.vars = h.vars := by
  cases hv : p.load h with
  | error e => rw [Node.SetChild_of_load_error h p seg X e hv]
  | ok v =>
    cases v with
    | slice a off len =>
      rw [Node.SetChild_slice h p seg X a off len hv]
      split
      · rfl
      · split
        · exact Heap.setCells_vars _ _ _
        · rfl
    | map m =>
      rw [Node.SetChild_map h p seg X m hv]
      split
      · exact Heap.setEntries_vars _ _ _
      · rfl
    | nil => rw [Node.SetChild_leaf h p seg X _ hv rfl]
    | bool b => rw [Node.SetChild_leaf h p seg X _ hv rfl]
    | float64 b => rw [Node.SetChild_leaf h p seg X _ hv rfl]
    | string s => rw [Node.SetChild_leaf h p seg X _ hv rfl]
    | other t => rw [Node.SetChild_leaf h p seg X _ hv rfl]

theorem finishDelete_vars_kind (h : Heap) (p : Ptr) (a off len : Nat)
    (res : Except Err Unit × List Iface) (hd : h.deref p = some (.slice a off len))
    (id : Nat) (v : Iface) (hv : h.vars[id]? = some v) :
    ∃ v', (finishDelete h p a off len res).2.vars[id]? = some v' ∧
      typeSwitch v' = typeSwitch v := by
  obtain ⟨r, cells⟩ := res
  cases r with
  | error e =>
    refine ⟨v, ?_, rfl⟩
    simp only [finishDelete, Heap.setCells_vars]
    exact hv
  | ok u =>
    by_cases hlen : len = 0
    · refine ⟨v, ?_, rfl⟩
      simp only [finishDelete, hlen, if_true, Heap.setCells_vars]
      exact hv
    · simp only [finishDelete, if_neg hlen]
      cases p with
      | var id0 =>
        simp only [Heap.deref] at hd
        simp only [Heap.store, Heap.setCells_vars]
        by_cases hid : id0 = id
        · subst hid
          rw [hd] at hv
          cases hv
          exact ⟨_, List.getElem?_set_self (getElem?_lt_length _ _ _ hd), rfl⟩
        · exact ⟨v, by rw [List.getElem?_set_ne hid, hv], rfl⟩
      | elem b idx =>
        refine ⟨v, ?_, rfl⟩
        simp only [Heap.store, Heap.setCells_vars]
        exact hv

theorem Node.DeleteChild_vars_kind (h : Heap) (p : Node) (seg : String)
    (id : Nat) (v : Iface) (hv : h.vars[id]? = some v) :
    ∃ v', (p.DeleteChild h seg).2.vars[id]? = some v' ∧ typeSwitch v' = typeSwitch v := by
  cases hl : p.load h with
  | error e =>
    rw [Node.DeleteChild_of_load_error h p seg e hl]
    exact ⟨v, hv, rfl⟩
  | ok v0 =>
    obtain ⟨p0, hp0, hd⟩ := Node.load_ok_ptr h p v0 hl
    cases v0 with
    | slice a off len =>
      rw [Node.DeleteChild_slice h p seg a off len p0 hp0 hl]
      cases hpu : ParseUint seg 64 with
      | error e => exact ⟨v, hv, rfl⟩
      | ok i =>
        simp only
        generalize shiftLoop off len (loopCount len i) (h.cells a) = res
        exact finishDelete_vars_kind h p0 a off len res hd id v hv
    | map m =>
      rw [Node.DeleteChild_map h p seg m hl]
      split
      · exact ⟨v, by rw [Heap.setEntries_vars]; exact hv, rfl⟩
      · exact ⟨v, hv, rfl⟩
    | nil => rw [Node.DeleteChild_leaf h p seg _ hl rfl]; exact ⟨v, hv, rfl⟩
    | bool b => rw [Node.DeleteChild_leaf h p seg _ hl rfl]; exact ⟨v, hv, rfl⟩
    | float64 b => rw [Node.DeleteChild_leaf h p seg _ hl rfl]; exact ⟨v, hv, rfl⟩
    | string s => rw [Node.DeleteChild_leaf h p seg _ hl rfl]; exact ⟨v, hv, rfl⟩
    | other t => rw [Node.DeleteChild_leaf h p seg _ hl rfl]; exact ⟨v, hv, rfl⟩

theorem Node.TypeOf_var (h : Heap) (root : Node) (r : Nat) (hroot : root.IfaceP = some (.var r)) :
    root.TypeOf h = match h.vars[r]? with
      | some v => .ok (typeSwitch v)
      | none => .error .panicNil := by
  unfold Node.TypeOf Node.load
  rw [hroot]
  simp only [Heap.deref]
  cases h.vars[r]? <;> rfl

/-- C15: for a root handle on a variable (what `Bytes2Node` returns), every path and every
value: after `Set` and after `Delete`, whether they succeeded or failed, `root.Type()` is
what it was before the call. -/
theorem root_kind_invariant (h : Heap) (root : Node) (r : Nat) (path : String) (X : Iface)
    (t : Nat) (hroot : root.IfaceP = some (.var r)) (ht : root.TypeOf h = .ok t) :
    root.TypeOf (root.Set h path X).2 = .ok t ∧ root.TypeOf (root.Delete h path).2 = .ok t := by
  rw [Node.TypeOf_var h root r hroot] at ht
  cases hr : h.vars[r]? with
  | none => simp [hr] at ht
  | some v =>
    rw [hr] at ht
    simp only [Except.ok.injEq] at ht
    have g := Node.parentOf_grows h root path
    constructor
    · rw [Node.TypeOf_var _ root r hroot, Node.Set_eq_parentOf]
      cases hpar : root.parentOf h path with
      | mk res hp =>
        rw [hpar] at g
        have hv' := prefix_getElem? _ _ g.2 r v hr
        cases res with
        | error e => simp only [hv', ht]
        | ok parent => simp only [Node.SetChild_vars, hv', ht]
    · rw [Node.TypeOf_var _ root r hroot, Node.Delete_eq_parentOf]
      cases hpar : root.parentOf h path with
      | mk res hp =>
        rw [hpar] at g
        have hv' := prefix_getElem? _ _ g.2 r v hr
        cases res with
        | error e => simp only [hv', ht]
        | ok parent =>
          obtain ⟨v', hv2, hk⟩ := Node.DeleteChild_vars_kind hp parent (childPathOf path) r v hv'
          simp only [hv2, hk, ht]

theorem root_kind_invariant_witness :
    (rootNode.IfaceP = some (.var 0) ∧ rootNode.TypeOf arrDoc = .ok TypeArray) ∧
    (rootNode.TypeOf (rootNode.Set arrDoc "0" f99).2 = .ok TypeArray ∧
      rootNode.TypeOf (rootNode.Delete arrDoc "0").2 = .ok TypeArray) :=
  ⟨by decide, root_kind_invariant arrDoc rootNode 0 "0" f99 TypeArray (by decide) (by decide)⟩

/-! ## The shifting loop -/

/-- Run for its last `n` iterations on a slice that lies inside its backing array, the loop
does not panic; it keeps the length of the backing array and moves each element of the
slice from the position of the first iteration on one place to the left. -/
theorem shiftLoop_shift (off len : Nat) (n : Nat) (cells : List Iface)
    (hn : n + 1 ≤ len ∨ n = 0) (hb : off + len ≤ cells.length) :
    ∃ cells', shiftLoop off len n cells = (.ok (), cells') ∧ cells'.length = cells.length ∧
      ∀ j, cells'[j]? =
        if off + (len - n) ≤ j + 1 ∧ j + 1 < off + len then cells[j + 1]? else cells[j]? := by
  induction n generalizing cells with
  | zero =>
    refine ⟨cells, rfl, rfl, fun j => ?_⟩
    have : ¬ (off + (len - 0) ≤ j + 1 ∧ j + 1 < off + len) := by omega
    rw [if_neg this]
  | succ n ih =>
    have hn2 : n + 2 ≤ len := by omega
    have h1 : (1 : Int) ≤ (len : Int) - ((n : Int) + 1) := by omega
    have hi : ((len : Int) - ((n : Int) + 1)).toNat = len - (n + 1) := by omega
    unfold shiftLoop
    simp only [h1, if_true, hi]
    obtain ⟨cells', hs, hl, hc⟩ := ih
      (cells.set (off + (len - (n + 1)) - 1) (cells.getD (off + (len - (n + 1))) .nil))
      (Or.inl (by omega)) (by rw [List.length_set]; exact hb)
    refine ⟨cells', hs, by rw [hl, List.length_set], fun j => ?_⟩
    rw [hc j]
    have hget : cells.getD (off + (len - (n + 1))) .nil = cells[off + (len - (n + 1))]?.getD .nil := by
      rw [List.getD_eq_getElem?_getD]
    have hlt : off + (len - (n + 1)) < cells.length := by omega
    have hsome : cells[off + (len - (n + 1))]? = some (cells.getD (off + (len - (n + 1))) .nil) := by
      rw [hget, List.getElem?_eq_getElem hlt]
      rfl
    by_cases hA : off + (len - n) ≤ j + 1 ∧ j + 1 < off + len
    · have hB : off + (len - (n + 1)) ≤ j + 1 ∧ j + 1 < off + len := by omega
      rw [if_pos hA, if_pos hB, List.getElem?_set_ne (by omega)]
    · rw [if_neg hA]
      by_cases hj : j = off + (len - (n + 1)) - 1
      · have hB : off + (len - (n + 1)) ≤ j + 1 ∧ j + 1 < off + len := by omega
        have hj1 : j + 1 = off + (len - (n + 1)) := by omega
        rw [if_pos hB, hj1, hsome, hj, List.getElem?_set_self (by omega)]
      · have hB : ¬ (off + (len - (n + 1)) ≤ j + 1 ∧ j + 1 < off + len) := by omega
        rw [if_neg hB, List.getElem?_set_ne (Ne.symm hj)]

/-! ## Writing through a handle -/

theorem Heap.cells_ne_nil_of_getElem? (h : Heap) (b idx : Nat) (v : Iface)
    (hd : (h.cells b)[idx]? = some v) : h.cells b ≠ [] := by
  intro e
  rw [e] at hd
  simp at hd

theorem Heap.store_deref (h : Heap) (p : Ptr) (v0 v : Iface) (hd : h.deref p = some v0) :
    (h.store p v).deref p = some v := by
  cases p with
  | var id =>
    simp only [Heap.deref] at hd
    simp only [Heap.store, Heap.deref]
    exact List.getElem?_set_self (getElem?_lt_length _ _ _ hd)
  | elem b idx =>
    simp only [Heap.deref] at hd
    simp only [Heap.store, Heap.deref]
    rw [Heap.cells_setCells_eq h b _ (h.cells_ne_nil_of_getElem? b idx v0 hd)]
    exact List.getElem?_set_self (getElem?_lt_length _ _ _ hd)

theorem Heap.store_objs_ne (h : Heap) (p : Ptr) (v : Iface) (c : Nat)
    (hc : ∀ idx, p ≠ .elem c idx) : (h.store p v).objs[c]? = h.objs[c]? := by
  cases p with
  | var id => rfl
  | elem b idx =>
    simp only [Heap.store]
    exact Heap.setCells_objs_ne h b c _ (fun e => hc idx (by rw [e]))

theorem Heap.store_vars_elem (h : Heap) (b idx : Nat) (v : Iface) :
    (h.store (.elem b idx) v).vars = h.vars := by
  simp only [Heap.store, Heap.setCells_vars]

/-- A handle whose value is a slice of array `a` does not itself point into `a`, in an
acyclic store. -/
theorem Heap.ptr_not_into_own_array (h : Heap) (hac : h.acyclic = true) (p : Ptr)
    (a off len : Nat) (hd : h.deref p = some (.slice a off len)) :
    ∀ idx, p ≠ .elem a idx := by
  intro idx e
  subst e
  simp only [Heap.deref] at hd
  obtain ⟨cs, ho, hm⟩ := h.cells_mem_slots a _ (List.getElem?_mem hd)
  have := h.acyclic_slots hac a _ ho _ hm a rfl
  omega

theorem finishDelete_ok (h : Heap) (p : Ptr) (a off len : Nat) (cells : List Iface)
    (hlen : len ≠ 0) :
    finishDelete h p a off len (.ok (), cells) =
      (.ok (), (h.setCells a cells).store p (.slice a off (len - 1))) := by
  simp only [finishDelete, if_neg hlen]

/-- C19: for a handle on an array of length `n` in an acyclic store and a terminal segment
that `ParseUint` reads as `i` with `n ≤ i < 2^63 - 1`: when `n ≥ 1`, `DeleteChild` returns
no error and the handle then reads as the array of the first `n - 1` old elements (the
last one is dropped, nothing is shifted); when `n = 0`, `DeleteChild` panics on the slice
expression instead of returning an error. -/
theorem DeleteChild_index_past_end (h : Heap) (node : Node) (p : Ptr) (a off len i : Nat)
    (seg : String) (hac : h.acyclic = true) (hp : node.IfaceP = some p)
    (hv : node.Value h = .ok (.slice a off len)) (hpu : ParseUint seg 64 = .ok i)
    (hge : len ≤ i) (hlt : i < 9223372036854775807) :
    (1 ≤ len → ∃ h2, node.DeleteChild h seg = (.ok (), h2) ∧
        node.Value h2 = .ok (.slice a off (len - 1)) ∧
        h2.elems (.slice a off (len - 1)) = (h.elems (.slice a off len)).take (len - 1)) ∧
      (len = 0 → (node.DeleteChild h seg).1 = .error .panicSlice) := by
  have hl : node.load h = .ok (.slice a off len) := hv
  have hd : h.deref p = some (.slice a off len) := by
    obtain ⟨p', hp', hd'⟩ := Node.load_ok_ptr h node _ hl
    rw [hp] at hp'
    cases hp'
    exact hd'
  have hcount : loopCount len i = 0 := by
    rw [loopCount_small len i hlt]
    omega
  have hdel : node.DeleteChild h seg =
      finishDelete h p a off len (.ok (), h.cells a) := by
    rw [Node.DeleteChild_slice h node seg a off len p hp hl, hpu]
    simp only [hcount, shiftLoop]
  constructor
  · intro h1
    have hlen : len ≠ 0 := by omega
    rw [hdel, finishDelete_ok h p a off len _ hlen, Heap.setCells_cells_self]
    refine ⟨_, rfl, ?_, ?_⟩
    · simp only [Node.Value, Node.load, hp, Heap.store_deref h p _ _ hd]
    · have hne := h.ptr_not_into_own_array hac p a off len hd
      simp only [Heap.elems, Heap.cells_congr h _ a (Heap.store_objs_ne h p _ a hne)]
      rw [List.take_take]
      congr 1
      omega
  · intro h0
    subst h0
    rw [hdel]
    simp only [finishDelete, if_true]

theorem DeleteChild_index_past_end_witness :
    (arrDoc.acyclic = true ∧ rootNode.IfaceP = some (.var 0) ∧
      rootNode.Value arrDoc = .ok (.slice 0 0 3) ∧ ParseUint "5" 64 = .ok 5 ∧
      3 ≤ 5 ∧ 5 < 9223372036854775807) ∧
    ((1 ≤ 3 → ∃ h2, rootNode.DeleteChild arrDoc "5" = (.ok (), h2) ∧
        rootNode.Value h2 = .ok (.slice 0 0 (3 - 1)) ∧
        h2.elems (.slice 0 0 (3 - 1)) = (arrDoc.elems (.slice 0 0 3)).take (3 - 1)) ∧
      (3 = 0 → (rootNode.DeleteChild arrDoc "5").1 = .error .panicSlice)) :=
  ⟨by decide,
    DeleteChild_index_past_end arrDoc rootNode (.var 0) 0 0 3 5 "5" (by decide) (by decide)
      (by decide) (by decide) (by decide) (by decide)⟩

/-! ## Deleting an array element through `Delete` -/

theorem Heap.setCells_deref_ne (h : Heap) (a : Nat) (cs : List Iface) (p : Ptr)
    (hne : ∀ idx, p ≠ .elem a idx) : (h.setCells a cs).deref p = h.deref p := by
  cases p with
  | var id => simp only [Heap.deref, Heap.setCells_vars]
  | elem b idx =>
    have hb : b ≠ a := fun e => hne idx (by rw [e])
    simp only [Heap.deref, Heap.cells_congr h _ b (Heap.setCells_objs_ne h a b cs hb)]

theorem getLoop_last (h hp : Heap) (root n : Node) (segs : List String) (hne : segs ≠ [])
    (hg : getLoop h root segs = (.ok n, hp)) :
    ∃ nb hb k bv, h.GrowsTo hb ∧ getLoop h root segs.dropLast = (.ok nb, hb) ∧
      segs = segs.dropLast ++ [k] ∧ nb.load hb = .ok bv ∧ nb.GetChild hb k = (.ok n, hp) := by
  have hsplit : segs = segs.dropLast ++ [segs.getLast hne] :=
    (List.dropLast_append_getLast hne).symm
  rw [hsplit, getLoop_append] at hg
  have g := getLoop_grows h root segs.dropLast
  cases hb : getLoop h root segs.dropLast with
  | mk r hb1 =>
    rw [hb] at hg g
    cases r with
    | error e => cases (Prod.mk.inj hg).1
    | ok nb =>
      simp only [getLoop_single] at hg
      obtain ⟨bv, hbv⟩ := Node.GetChild_ok_load _ _ _ _ _ hg
      exact ⟨nb, hb1, segs.getLast hne, bv, g, rfl, hsplit, hbv, hg⟩

theorem Node.GetChild_var_fresh (h hp : Heap) (nb n : Node) (k : String) (id : Nat)
    (hg : nb.GetChild h k = (.ok n, hp)) (hid : n.IfaceP = some (.var id)) :
    h.vars.length ≤ id := by
  obtain ⟨bv, hbv⟩ := Node.GetChild_ok_load _ _ _ _ _ hg
  cases bv with
  | slice b boff blen =>
    rw [Node.GetChild_slice h nb k b boff blen hbv] at hg
    split at hg
    · cases (Prod.mk.inj hg).1
    · split at hg
      · simp only [Prod.mk.injEq, Except.ok.injEq] at hg
        rw [← hg.1] at hid
        cases hid
      · cases (Prod.mk.inj hg).1
  | map m =>
    rw [Node.GetChild_map h nb k m hbv] at hg
    split at hg
    · simp only [Prod.mk.injEq, Except.ok.injEq] at hg
      rw [← hg.1] at hid
      simp only [Option.some.injEq, Ptr.var.injEq] at hid
      omega
    · cases (Prod.mk.inj hg).1
  | nil => rw [Node.GetChild_leaf h nb k _ hbv rfl] at hg; cases (Prod.mk.inj hg).1
  | bool b => rw [Node.GetChild_leaf h nb k _ hbv rfl] at hg; cases (Prod.mk.inj hg).1
  | float64 b => rw [Node.GetChild_leaf h nb k _ hbv rfl] at hg; cases (Prod.mk.inj hg).1
  | string s => rw [Node.GetChild_leaf h nb k _ hbv rfl] at hg; cases (Prod.mk.inj hg).1
  | other t => rw [Node.GetChild_leaf h nb k _ hbv rfl] at hg; cases (Prod.mk.inj hg).1

theorem Node.GetChild_elem_inv (h hp : Heap) (nb n : Node) (k : String) (b idx : Nat)
    (hg : nb.GetChild h k = (.ok n, hp)) (hid : n.IfaceP = some (.elem b idx)) :
    n = ⟨some (.elem b idx)⟩ ∧ hp = h ∧ ∃ boff blen ki, nb.load h = .ok (.slice b boff blen) ∧
      ParseInt k 16 = .ok ki ∧ (0 ≤ ki ∧ ki < (blen : Int)) ∧ idx = boff + ki.toNat := by
  obtain ⟨bv, hbv⟩ := Node.GetChild_ok_load _ _ _ _ _ hg
  cases bv with
  | slice b' boff blen =>
    rw [Node.GetChild_slice h nb k b' boff blen hbv] at hg
    cases hpi : ParseInt k 16 with
    | error e =>
      rw [hpi] at hg
      cases (Prod.mk.inj hg).1
    | ok ki =>
      rw [hpi] at hg
      by_cases hb : 0 ≤ ki ∧ ki < (blen : Int)
      · simp only [hb, and_self, if_true, Prod.mk.injEq, Except.ok.injEq] at hg
        obtain ⟨hn, hh⟩ := hg
        rw [← hn] at hid
        simp only [Option.some.injEq, Ptr.elem.injEq] at hid
        obtain ⟨hb', hi⟩ := hid
        subst hb'
        refine ⟨?_, hh.symm, boff, blen, ki, hbv, rfl, hb, hi.symm⟩
        rw [← hn, hi]
      · simp only [if_neg hb] at hg
        cases (Prod.mk.inj hg).1
  | map m =>
    rw [Node.GetChild_map h nb k m hbv] at hg
    split at hg
    · simp only [Prod.mk.injEq, Except.ok.injEq] at hg
      rw [← hg.1] at hid
      cases hid
    · cases (Prod.mk.inj hg).1
  | nil => rw [Node.GetChild_leaf h nb k _ hbv rfl] at hg; cases (Prod.mk.inj hg).1
  | bool b => rw [Node.GetChild_leaf h nb k _ hbv rfl] at hg; cases (Prod.mk.inj hg).1
  | float64 b => rw [Node.GetChild_leaf h nb k _ hbv rfl] at hg; cases (Prod.mk.inj hg).1
  | string s => rw [Node.GetChild_leaf h nb k _ hbv rfl] at hg; cases (Prod.mk.inj hg).1
  | other t => rw [Node.GetChild_leaf h nb k _ hbv rfl] at hg; cases (Prod.mk.inj hg).1

theorem Heap.store_after_setCells (H : Heap) (p : Ptr) (a : Nat) (cells' : List Iface)
    (new v0 : Iface) (hd : H.deref p = some v0) (hne : ∀ idx, p ≠ .elem a idx)
    (hcn : H.cells a ≠ []) :
    ((H.setCells a cells').store p new).deref p = some new ∧
      ((H.setCells a cells').store p new).cells a = cells' := by
  constructor
  · exact Heap.store_deref _ p v0 new (by rw [Heap.setCells_deref_ne H a cells' p hne]; exact hd)
  · rw [Heap.cells_congr _ _ a (Heap.store_objs_ne (H.setCells a cells') p new a hne)]
    exact Heap.cells_setCells_eq H a cells' hcn

theorem Heap.ptr_above (h : Heap) (hac : h.acyclic = true) (b idx a : Nat) (v : Iface)
    (hd : h.deref (.elem b idx) = some v) (hr : v.ref? = some a) : a < b := by
  simp only [Heap.deref] at hd
  obtain ⟨cs, ho, hm⟩ := h.cells_mem_slots b _ (List.getElem?_mem hd)
  exact h.acyclic_slots hac b _ ho _ hm a hr

/-- What `Delete` does when the parent handle denotes an array and the terminal segment is
an index inside it: no error; the elements from the index on are moved one place to the
left in the backing array, and the slice shortened by one is stored through the parent
handle. -/
theorem Node.Delete_array_step (h hp : Heap) (root parent : Node) (p : Ptr) (path : String)
    (a off len i : Nat) (hwf : h.wellFormed = true)
    (hpar : root.parentOf h path = (.ok parent, hp)) (hp0 : parent.IfaceP = some p)
    (hv : parent.load hp = .ok (.slice a off len))
    (hpu : ParseUint (childPathOf path) 64 = .ok i) (hi : i < len)
    (hsmall : i < 9223372036854775807) :
    ∃ cells', root.Delete h path =
        (.ok (), (hp.setCells a cells').store p (.slice a off (len - 1))) ∧
      cells'.length = (hp.cells a).length ∧ hp.cells a ≠ [] ∧
      ∀ j, cells'[j]? =
        if off + i ≤ j ∧ j + 1 < off + len then (hp.cells a)[j + 1]? else (hp.cells a)[j]? := by
  have hwfp : hp.wellFormed = true := by
    have := Node.parentOf_wf h hwf root path
    rw [hpar] at this
    exact this
  have hval := Node.load_valid hp hwfp parent _ hv
  obtain ⟨cs, ho, hcells, hbound⟩ := hp.cells_of_valid a off len hval
  rw [← hcells] at hbound
  obtain ⟨cells', hs, hl, hc⟩ := shiftLoop_shift off len (len - (i + 1)) (hp.cells a)
    (by omega) hbound
  have hne : hp.cells a ≠ [] := by
    intro e
    rw [e] at hbound
    simp at hbound
    omega
  refine ⟨cells', ?_, hl, hne, fun j => ?_⟩
  · rw [Node.Delete_eq_parentOf, hpar]
    simp only
    rw [Node.DeleteChild_slice hp parent _ a off len p hp0 hv, hpu]
    simp only [loopCount_small len i hsmall, hs]
    exact finishDelete_ok hp p a off len cells' (by omega)
  · rw [hc j]
    have e : off + (len - (len - (i + 1))) ≤ j + 1 ↔ off + i ≤ j := by omega
    simp only [e]

/-- C18: in a well-formed, acyclic store, when the path has a parent path whose handle is
the copy `GetChild` makes of an object member, and that member is an array of length `n`
with the terminal index `i < n`: `Delete` returns no error, and afterwards the parent path
still resolves from the root to an array of the same length `n`, whose elements are the
old ones before `i`, the old successors from `i` to `n - 2`, and the old last element
again at `n - 1`. -/
theorem Delete_under_object_key_not_shrunk (h hp : Heap) (root parent : Node) (id : Nat)
    (path : String) (a off len i : Nat) (hwf : h.wellFormed = true)
    (hac : h.acyclic = true) (hdot : LastIndex path ≠ -1)
    (hpar : root.parentOf h path = (.ok parent, hp))
    (hp0 : parent.IfaceP = some (.var id))
    (hv : parent.Value hp = .ok (.slice a off len))
    (hpu : ParseUint (childPathOf path) 64 = .ok i) (hi : i < len)
    (hsmall : i < 9223372036854775807) :
    ∃ h2, root.Delete h path = (.ok (), h2) ∧
      ∃ parent' hp', root.parentOf h2 path = (.ok parent', hp') ∧
        parent'.Value hp' = .ok (.slice a off len) ∧
        ∀ j, j < len → (hp'.cells a)[off + j]? =
          if j < i then (h.cells a)[off + j]?
          else if j + 1 < len then (h.cells a)[off + j + 1]? else (h.cells a)[off + j]? := by
  obtain ⟨cells', hdel, hl, hne, hc⟩ :=
    Node.Delete_array_step h hp root parent (.var id) path a off len i hwf hpar hp0 hv hpu hi
      hsmall
  have g : h.GrowsTo hp := by
    have := Node.parentOf_grows h root path
    rw [hpar] at this
    exact this
  have hfresh : h.vars.length ≤ id := by
    have hpar2 := hpar
    rw [Node.parentOf_eq_getLoop] at hpar2
    have hsne : (Split path).dropLast ≠ [] := by
      rcases Split_decomp path with ⟨h1, _⟩ | ⟨_, hs⟩
      · exact absurd h1 hdot
      · rw [hs, List.dropLast_concat]
        exact Split_ne_nil _
    obtain ⟨nb, hb, k, bv, gb, _, _, _, hgc⟩ := getLoop_last h hp root parent _ hsne hpar2
    have := Node.GetChild_var_fresh hb hp nb parent k id hgc hp0
    have hlen : h.vars.length ≤ hb.vars.length := gb.2.length_le
    omega
  refine ⟨_, hdel, ?_⟩
  obtain ⟨parent', hp', hpar', hl', g'⟩ :=
    Node.parentOf_frame h hp ((hp.setCells a cells').store (.var id) (.slice a off (len - 1)))
      hac root parent path _ a hpar hv rfl
      (fun id' v hv' => by
        have hlt := getElem?_lt_length _ _ _ hv'
        simp only [Heap.store, Heap.setCells_vars]
        rw [List.getElem?_set_ne (by omega)]
        exact prefix_getElem? _ _ g.2 id' v hv')
      (fun c hc' => by
        rw [Heap.store_objs_ne _ _ _ c (fun idx => by simp)]
        exact Heap.setCells_objs_ne hp a c _ (by omega))
  refine ⟨parent', hp', hpar', hl', fun j hj => ?_⟩
  have hcells : hp'.cells a = cells' := by
    rw [g'.cells, Heap.cells_congr _ _ a (Heap.store_objs_ne (hp.setCells a cells')
      (.var id) _ a (fun idx => by simp))]
    exact Heap.cells_setCells_eq hp a cells' hne
  rw [hcells, hc (off + j), g.cells]
  by_cases h1 : j < i
  · have : ¬ (off + i ≤ off + j ∧ off + j + 1 < off + len) := by omega
    rw [if_neg this, if_pos h1]
  · by_cases h2 : j + 1 < len
    · have : off + i ≤ off + j ∧ off + j + 1 < off + len := by omega
      rw [if_pos this, if_neg h1, if_pos h2]
    · have : ¬ (off + i ≤ off + j ∧ off + j + 1 < off + len) := by omega
      rw [if_neg this, if_neg h1, if_neg h2]

theorem Delete_under_object_key_not_shrunk_witness :
    (abDoc.wellFormed = true ∧ abDoc.acyclic = true ∧ LastIndex "a.b.0" ≠ -1 ∧
      rootNode.parentOf abDoc "a.b.0" =
        (.ok ⟨some (.var 2)⟩, ⟨[.map 2, .map 1, .slice 0 0 3], abDoc.objs⟩) ∧
      (⟨some (.var 2)⟩ : Node).IfaceP = some (.var 2) ∧
      Node.Value ⟨[.map 2, .map 1, .slice 0 0 3], abDoc.objs⟩ ⟨some (.var 2)⟩ =
        .ok (.slice 0 0 3) ∧
      ParseUint (childPathOf "a.b.0") 64 = .ok 0 ∧ 0 < 3 ∧ 0 < 9223372036854775807) ∧
    (∃ h2, rootNode.Delete abDoc "a.b.0" = (.ok (), h2) ∧
      ∃ parent' hp', rootNode.parentOf h2 "a.b.0" = (.ok parent', hp') ∧
        parent'.Value hp' = .ok (.slice 0 0 3) ∧
        ∀ j, j < 3 → (hp'.cells 0)[0 + j]? =
          if j < 0 then (abDoc.cells 0)[0 + j]?
          else if j + 1 < 3 then (abDoc.cells 0)[0 + j + 1]? else (abDoc.cells 0)[0 + j]?) :=
  ⟨by decide,
    Delete_under_object_key_not_shrunk abDoc ⟨[.map 2, .map 1, .slice 0 0 3], abDoc.objs⟩
      rootNode ⟨some (.var 2)⟩ 2 "a.b.0" 0 0 3 0 (by decide) (by decide) (by decide)
      (by decide) (by decide) (by decide) (by decide) (by decide) (by decide)⟩

/-- C16: in a well-formed, acyclic store, when the parent handle denotes an array of length
`n` directly, because the path has no parent path (the array is the root value) or because
the handle is the address of an element of an enclosing array, and the terminal index is
`i < n`: `Delete` returns no error, and afterwards the parent path resolves from the root
to an array of length `n - 1` whose elements are the old ones before `i` followed by the
old successors of `i`. -/
theorem Delete_array_compacts_direct (h hp : Heap) (root parent : Node) (p : Ptr)
    (path : String) (a off len i : Nat) (hwf : h.wellFormed = true)
    (hac : h.acyclic = true) (hpar : root.parentOf h path = (.ok parent, hp))
    (hp0 : parent.IfaceP = some p)
    (hdirect : LastIndex path = -1 ∨ ∃ b idx, p = .elem b idx)
    (hv : parent.Value hp = .ok (.slice a off len))
    (hpu : ParseUint (childPathOf path) 64 = .ok i) (hi : i < len)
    (hsmall : i < 9223372036854775807) :
    ∃ h2, root.Delete h path = (.ok (), h2) ∧
      ∃ parent' hp', root.parentOf h2 path = (.ok parent', hp') ∧
        parent'.Value hp' = .ok (.slice a off (len - 1)) ∧
        ∀ j, j < len - 1 → (hp'.cells a)[off + j]? =
          if j < i then (h.cells a)[off + j]? else (h.cells a)[off + j + 1]? := by
  obtain ⟨cells', hdel, hl, hne, hc⟩ :=
    Node.Delete_array_step h hp root parent p path a off len i hwf hpar hp0 hv hpu hi hsmall
  have g : h.GrowsTo hp := by
    have := Node.parentOf_grows h root path
    rw [hpar] at this
    exact this
  have hacp : hp.acyclic = true := g.acyclic hac
  have hd : hp.deref p = some (.slice a off len) := by
    obtain ⟨p', hp', hd'⟩ := Node.load_ok_ptr hp parent _ hv
    rw [hp0] at hp'
    cases hp'
    exact hd'
  have hnot := hp.ptr_not_into_own_array hacp p a off len hd
  obtain ⟨hderef, hcells2⟩ :=
    Heap.store_after_setCells hp p a cells' (.slice a off (len - 1)) _ hd hnot hne
  have hshape : ∀ (H : Heap), H.cells a = cells' → ∀ j, j < len - 1 →
      (H.cells a)[off + j]? =
        if j < i then (h.cells a)[off + j]? else (h.cells a)[off + j + 1]? := by
    intro H hH j hj
    rw [hH, hc (off + j), g.cells]
    by_cases h1 : j < i
    · have : ¬ (off + i ≤ off + j ∧ off + j + 1 < off + len) := by omega
      rw [if_neg this, if_pos h1]
    · have : off + i ≤ off + j ∧ off + j + 1 < off + len := by omega
      rw [if_pos this, if_neg h1]
  refine ⟨_, hdel, ?_⟩
  by_cases hdot : LastIndex path = -1
  · have hroot : parent = root ∧ hp = h := by
      unfold Node.parentOf at hpar
      rw [if_pos hdot] at hpar
      simp only [Prod.mk.injEq, Except.ok.injEq] at hpar
      exact ⟨hpar.1.symm, hpar.2.symm⟩
    refine ⟨root, _, ?_, ?_, hshape _ hcells2⟩
    · unfold Node.parentOf
      rw [if_pos hdot]
    · rw [← hroot.1]
      simp only [Node.Value, Node.load, hp0, hderef]
  · rcases hdirect with h0 | ⟨b, idx, hpe⟩
    · exact absurd h0 hdot
    · subst hpe
      have hpar2 := hpar
      rw [Node.parentOf_eq_getLoop] at hpar2
      have hsne : (Split path).dropLast ≠ [] := by
        rcases Split_decomp path with ⟨h1, _⟩ | ⟨_, hs⟩
        · exact absurd h1 hdot
        · rw [hs, List.dropLast_concat]
          exact Split_ne_nil _
      obtain ⟨nb, hb, k, bv, gb, hgb, hsplit, _, hgc⟩ :=
        getLoop_last h hp root parent _ hsne hpar2
      obtain ⟨hpn, hhp, boff, blen, ki, hbv, hpi, hbnd, hidx⟩ :=
        Node.GetChild_elem_inv hb hp nb parent k b idx hgc hp0
      subst hhp
      have hab : a < b := hp.ptr_above hacp b idx a _ hd rfl
      obtain ⟨nb', hb', hg', hl', g'⟩ :=
        getLoop_frame h hp
          ((hp.setCells a cells').store (.elem b idx) (.slice a off (len - 1)))
          hac root nb (Split path).dropLast.dropLast _ b hgb hbv rfl
          (fun id' v hv' => by
            rw [Heap.store_vars_elem, Heap.setCells_vars]
            exact prefix_getElem? _ _ g.2 id' v hv')
          (fun c hc' => by
            rw [Heap.store_objs_ne _ _ _ c (fun idx' e => by cases e; omega)]
            exact Heap.setCells_objs_ne hp a c _ (by omega))
      refine ⟨⟨some (.elem b idx)⟩, hb', ?_, ?_, hshape _ ?_⟩
      · rw [Node.parentOf_eq_getLoop, hsplit, getLoop_append, hg']
        simp only [getLoop_single]
        rw [Node.GetChild_slice hb' nb' k b boff blen hl', hpi]
        simp only [hbnd, and_self, if_true, hidx]
      · simp only [Heap.deref] at hderef
        simp only [Node.Value, Node.load, Heap.deref, g'.cells, hderef]
      · rw [g'.cells]
        exact hcells2

theorem Delete_array_compacts_direct_witness :
    (nestedDoc.wellFormed = true ∧ nestedDoc.acyclic = true ∧
      rootNode.parentOf nestedDoc "0.0" = (.ok ⟨some (.elem 2 0)⟩, nestedDoc) ∧
      (⟨some (.elem 2 0)⟩ : Node).IfaceP = some (.elem 2 0) ∧
      (LastIndex "0.0" = -1 ∨ ∃ b idx, Ptr.elem 2 0 = .elem b idx) ∧
      Node.Value nestedDoc ⟨some (.elem 2 0)⟩ = .ok (.slice 0 0 2) ∧
      ParseUint (childPathOf "0.0") 64 = .ok 0 ∧ 0 < 2 ∧ 0 < 9223372036854775807) ∧
    (∃ h2, rootNode.Delete nestedDoc "0.0" = (.ok (), h2) ∧
      ∃ parent' hp', rootNode.parentOf h2 "0.0" = (.ok parent', hp') ∧
        parent'.Value hp' = .ok (.slice 0 0 (2 - 1)) ∧
        ∀ j, j < 2 - 1 → (hp'.cells 0)[0 + j]? =
          if j < 0 then (nestedDoc.cells 0)[0 + j]? else (nestedDoc.cells 0)[0 + j + 1]?) :=
  ⟨⟨by decide, by decide, by decide, by decide, Or.inr ⟨2, 0, rfl⟩, by decide, by decide,
      by decide, by decide⟩,
    Delete_array_compacts_direct nestedDoc nestedDoc rootNode ⟨some (.elem 2 0)⟩ (.elem 2 0)
      "0.0" 0 0 2 0 (by decide) (by decide) (by decide) (by decide) (Or.inr ⟨2, 0, rfl⟩)
      (by decide) (by decide) (by decide) (by decide)⟩

/-- C11 (defect in the code): on the document `{"a":{"b":[1,2,3]},"c":"x"}`, take the
handle `h = Get("c")`, then `Set("c", 99)` succeeds and a fresh `Get("c")` reads `99`, but
reading through `h` still yields `"x"`: the handle `GetChild` returns for an object member
is the address of a local copy, not of the member. -/
theorem handle_on_object_member_is_stale :
    rootNode.Get exDoc "c" = (.ok ⟨some (.var 1)⟩, ⟨[.map 2, .string "x"], exDoc.objs⟩) ∧
      (rootNode.Set ⟨[.map 2, .string "x"], exDoc.objs⟩ "c" f99).1 = .ok () ∧
      rootNode.valueAt (rootNode.Set ⟨[.map 2, .string "x"], exDoc.objs⟩ "c" f99).2 "c" =
        .ok f99 ∧
      Node.Value (rootNode.Set ⟨[.map 2, .string "x"], exDoc.objs⟩ "c" f99).2 ⟨some (.var 1)⟩ =
        .ok (.string "x") := by
  decide

/-! ## Parsing an index -/

theorem splitDot_eq_splitOn (cs : List Char) : splitDot cs = cs.splitOn '.' := by
  induction cs with
  | nil => rfl
  | cons c cs ih =>
    unfold List.splitOn at ih ⊢
    rw [List.splitOnP_cons]
    by_cases hc : c = '.'
    · subst hc
      simp [splitDot, ih]
    · obtain ⟨seg, rest, hq, hcq⟩ := splitDot_cons_of_ne c cs hc
      rw [hcq, ← ih, hq]
      simp [hc]

theorem specSplit_eq_Split (path : String) : specSplit path = Split path := by
  unfold specSplit Split
  rw [splitDot_eq_splitOn]

theorem digitsFrom_ge (ds : List Char) (n : Nat) : n ≤ digitsFrom ds n := by
  induction ds generalizing n with
  | nil => exact Nat.le_refl _
  | cons d ds ih =>
    have := ih (n * 10 + (d.toNat - 48))
    simp only [digitsFrom, List.foldl_cons] at this ⊢
    omega

theorem parseUintLoop_16 (s0 : String) (cs : List Char) (n : Nat) (hn : n ≤ 65535) :
    (cs.all isDigit = true ∧ digitsFrom cs n ≤ 65535 →
        parseUintLoop s0 16 cs n = .ok (digitsFrom cs n)) ∧
      (¬ (cs.all isDigit = true ∧ digitsFrom cs n ≤ 65535) →
        ∃ r, parseUintLoop s0 16 cs n = .error (.numError "ParseUint" s0 r)) := by
  induction cs generalizing n with
  | nil =>
    constructor
    · intro _
      rfl
    · intro hne
      exact absurd ⟨rfl, hn⟩ hne
  | cons c cs ih =>
    have hstep : digitsFrom (c :: cs) n = digitsFrom cs (n * 10 + (c.toNat - 48)) := rfl
    by_cases hd : '0' ≤ c ∧ c ≤ '9'
    · have hdig : isDigit c = true := by simp [isDigit, hd]
      have hcut : ¬ (n ≥ (2 ^ 64 - 1) / 10 + 1) := by omega
      by_cases hov : n * 10 + (c.toNat - 48) ≥ 2 ^ 64 ∨ n * 10 + (c.toNat - 48) > 2 ^ 16 - 1
      · have hbig : 65535 < n * 10 + (c.toNat - 48) := by omega
        have hge := digitsFrom_ge cs (n * 10 + (c.toNat - 48))
        constructor
        · intro h
          rw [hstep] at h
          omega
        · intro _
          refine ⟨true, ?_⟩
          unfold parseUintLoop
          rw [if_pos hd, if_neg hcut]
          simp only [hov, if_true]
      · have hsmall : n * 10 + (c.toNat - 48) ≤ 65535 := by omega
        have hunf : parseUintLoop s0 16 (c :: cs) n =
            parseUintLoop s0 16 cs (n * 10 + (c.toNat - 48)) := by
          conv => lhs; unfold parseUintLoop
          rw [if_pos hd, if_neg hcut]
          simp only [hov, if_false]
        rw [hunf, hstep]
        have hall : (c :: cs).all isDigit = cs.all isDigit := by
          simp [List.all_cons, hdig]
        rw [hall]
        exact ih _ hsmall
    · have hdig : isDigit c = false := by simp [isDigit, hd]
      constructor
      · intro h
        simp [List.all_cons, hdig] at h
      · intro _
        refine ⟨false, ?_⟩
        unfold parseUintLoop
        rw [if_neg hd]

theorem ParseUint_16 (body : List Char) :
    (body ≠ [] ∧ body.all isDigit = true ∧ digitsFrom body 0 ≤ 65535 →
        ParseUint (String.mk body) 16 = .ok (digitsFrom body 0)) ∧
      (¬ (body ≠ [] ∧ body.all isDigit = true ∧ digitsFrom body 0 ≤ 65535) →
        ∃ r, ParseUint (String.mk body) 16 =
          .error (.numError "ParseUint" (String.mk body) r)) := by
  unfold ParseUint
  by_cases he : body = []
  · subst he
    constructor
    · intro h
      exact absurd rfl h.1
    · intro _
      exact ⟨false, by simp⟩
  · have hl := parseUintLoop_16 (String.mk body) body 0 (by omega)
    simp only [he, if_false]
    constructor
    · intro h
      exact hl.1 ⟨h.2.1, h.2.2⟩
    · intro h
      exact hl.2 (fun h' => h ⟨he, h'.1, h'.2⟩)

theorem ParseInt_spec (seg : String) :
    (∀ i, specInt16 seg = some i → ParseInt seg 16 = .ok i) ∧
      (specInt16 seg = none → ∃ r, ParseInt seg 16 = .error (.numError "ParseInt" seg r)) := by
  unfold specInt16 ParseInt
  cases hs : seg.data with
  | nil =>
    simp only
    exact ⟨fun i h => (by cases h), fun _ => ⟨false, rfl⟩⟩
  | cons c cs =>
    simp only
    generalize hbody : (if c = '+' ∨ c = '-' then cs else c :: cs) = body
    have hpu := ParseUint_16 body
    by_cases hc : body ≠ [] ∧ body.all isDigit = true
    · by_cases hV : digitsFrom body 0 ≤ 65535
      · rw [hpu.1 ⟨hc.1, hc.2, hV⟩, if_pos hc]
        generalize digitsFrom body 0 = V at hV
        have h15 : (2 : Nat) ^ (16 - 1) = 32768 := by norm_num
        simp only [h15]
        by_cases hneg : c = '-'
        · simp only [hneg, decide_True, if_true, Bool.true_eq_false, false_and, if_false,
            true_and]
          by_cases h32 : V ≤ 32768
          · have c1 : -32768 ≤ -(V : Int) ∧ -(V : Int) ≤ 32767 := by omega
            have c2 : ¬ (V > 32768) := by omega
            simp only [c1, and_self, if_true, c2, if_false]
            exact ⟨fun i hi => (by rw [Option.some.inj hi]), fun hn => (by cases hn)⟩
          · have c1 : ¬ (-32768 ≤ -(V : Int) ∧ -(V : Int) ≤ 32767) := by omega
            have c2 : V > 32768 := by omega
            simp only [c1, if_false, c2, if_true]
            exact ⟨fun i hi => (by cases hi), fun _ => ⟨true, rfl⟩⟩
        · simp only [hneg, decide_False, if_false, Bool.false_eq_true, false_and, true_and]
          by_cases h32 : V ≤ 32767
          · have c1 : -32768 ≤ (V : Int) ∧ (V : Int) ≤ 32767 := by omega
            have c2 : ¬ (V ≥ 32768) := by omega
            simp only [c1, and_self, if_true, c2, if_false]
            exact ⟨fun i hi => (by rw [Option.some.inj hi]), fun hn => (by cases hn)⟩
          · have c1 : ¬ (-32768 ≤ (V : Int) ∧ (V : Int) ≤ 32767) := by omega
            have c2 : V ≥ 32768 := by omega
            simp only [c1, if_false, c2, if_true]
            exact ⟨fun i hi => (by cases hi), fun _ => ⟨true, rfl⟩⟩
      · obtain ⟨r, hr⟩ := hpu.2 (fun h => hV h.2.2)
        rw [hr, if_pos hc]
        have c1 : ¬ ((-32768 ≤ if c = '-' then -((digitsFrom body 0 : Nat) : Int)
            else ((digitsFrom body 0 : Nat) : Int)) ∧
            (if c = '-' then -((digitsFrom body 0 : Nat) : Int)
              else ((digitsFrom body 0 : Nat) : Int)) ≤ 32767) := by
          split <;> omega
        rw [if_neg c1]
        refine ⟨fun i hi => (by cases hi), fun _ => ?_⟩
        cases r with
        | false => exact ⟨false, rfl⟩
        | true => exact ⟨true, rfl⟩
    · obtain ⟨r, hr⟩ := hpu.2 (fun h => hc ⟨h.1, h.2.1⟩)
      rw [hr, if_neg hc]
      refine ⟨fun i hi => (by cases hi), fun _ => ?_⟩
      cases r with
      | false => exact ⟨false, rfl⟩
      | true => exact ⟨true, rfl⟩

/-! ## `Get` against the walk of the specification -/

theorem Node.GetChild_of_stepVal_error (h : Heap) (n : Node) (v : Iface) (seg : String)
    (e : Err) (hv : n.load h = .ok v) (hval : v.validIn h = true)
    (hs : stepVal h v seg = .error e) : n.GetChild h seg = (.error e, h) := by
  cases v with
  | slice a off len =>
    rw [Node.GetChild_slice h n seg a off len hv]
    simp only [stepVal] at hs
    cases hpi : ParseInt seg 16 with
    | error e' =>
      rw [hpi] at hs
      simp only [Except.error.injEq] at hs
      rw [hs]
    | ok i =>
      rw [hpi] at hs
      by_cases hb : 0 ≤ i ∧ i < (len : Int)
      · obtain ⟨cs, _, hcells, hbound⟩ := h.cells_of_valid a off len hval
        have hlt : off + i.toNat < (h.cells a).length := by
          rw [hcells]
          omega
        simp only [hb, and_self, if_true, List.getElem?_eq_getElem hlt] at hs
        cases hs
      · simp only [if_neg hb, Except.error.injEq] at hs ⊢
        rw [hs]
  | map m =>
    rw [Node.GetChild_map h n seg m hv]
    simp only [stepVal] at hs
    cases hl : mapLookup seg (h.entries m) with
    | none =>
      rw [hl] at hs
      simp only [Except.error.injEq] at hs
      rw [hs]
    | some w =>
      rw [hl] at hs
      cases hs
  | nil =>
    rw [Node.GetChild_leaf h n seg _ hv rfl]
    simp only [stepVal, Except.error.injEq] at hs
    rw [hs]
  | bool b =>
    rw [Node.GetChild_leaf h n seg _ hv rfl]
    simp only [stepVal, Except.error.injEq] at hs
    rw [hs]
  | float64 b =>
    rw [Node.GetChild_leaf h n seg _ hv rfl]
    simp only [stepVal, Except.error.injEq] at hs
    rw [hs]
  | string s =>
    rw [Node.GetChild_leaf h n seg _ hv rfl]
    simp only [stepVal, Except.error.injEq] at hs
    rw [hs]
  | other t =>
    rw [Node.GetChild_leaf h n seg _ hv rfl]
    simp only [stepVal, Except.error.injEq] at hs
    rw [hs]

theorem getLoop_eq_walkVal (h : Heap) (hwf : h.wellFormed = true) (n : Node) (v : Iface)
    (segs : List String) (hv : n.load h = .ok v) :
    (match getLoop h n segs with
      | (.ok n', h1) => n'.load h1
      | (.error e, _) => .error e) = walkVal h v segs := by
  induction segs generalizing h n v with
  | nil =>
    simp only [getLoop, walkVal]
    exact hv
  | cons seg segs ih =>
    simp only [getLoop, walkVal]
    cases hs : stepVal h v seg with
    | error e =>
      rw [Node.GetChild_of_stepVal_error h n v seg e hv (Node.load_valid h hwf n v hv) hs]
    | ok w =>
      obtain ⟨n1, h1, hg, hl⟩ := Node.GetChild_of_stepVal h n v w seg hv hs
      have hwf1 : h1.wellFormed = true := by
        have := Node.GetChild_wf h hwf n seg
        rw [hg] at this
        exact this
      have g : h.GrowsTo h1 := by
        have := Node.GetChild_grows h n seg
        rw [hg] at this
        exact this
      rw [hg]
      simp only
      rw [ih h1 hwf1 n1 w hl, walkVal_congr h h1 g.1]

theorem Node.valueAt_eq_walkVal (h : Heap) (hwf : h.wellFormed = true) (root : Node)
    (v0 : Iface) (path : String) (hv : root.load h = .ok v0) :
    root.valueAt h path = walkVal h v0 (Split path) := by
  rw [← getLoop_eq_walkVal h hwf root v0 (Split path) hv]
  unfold Node.valueAt Node.Get Node.Value
  cases getLoop h root (Split path) with
  | mk r h1 => cases r <;> rfl

theorem Heap.elems_getElem? (h : Heap) (a off len j : Nat) (hj : j < len) :
    (h.elems (.slice a off len))[j]? = (h.cells a)[off + j]? := by
  simp only [Heap.elems]
  rw [List.getElem?_take_of_lt hj, List.getElem?_drop]

theorem stepVal_failure (h : Heap) (v : Iface) (seg : String) (hval : v.validIn h = true) :
    (stepVal h v seg).mapError Err.failure = specChild h v seg := by
  cases v with
  | slice a off len =>
    simp only [stepVal, specChild]
    obtain ⟨hsome, hnone⟩ := ParseInt_spec seg
    cases hsp : specInt16 seg with
    | none =>
      obtain ⟨r, hr⟩ := hnone hsp
      rw [hr]
      rfl
    | some i =>
      rw [hsome i hsp]
      simp only
      by_cases hb : 0 ≤ i ∧ i < (len : Int)
      · obtain ⟨cs, _, hcells, hbound⟩ := h.cells_of_valid a off len hval
        have hlt : off + i.toNat < (h.cells a).length := by
          rw [hcells]
          omega
        rw [if_pos hb, if_pos hb, Heap.elems_getElem? h a off len i.toNat (by omega),
          List.getElem?_eq_getElem hlt]
        rfl
      · rw [if_neg hb, if_neg hb]
        rfl
  | map m =>
    simp only [stepVal, specChild]
    cases mapLookup seg (h.entries m) <;> rfl
  | nil => rfl
  | bool b => rfl
  | float64 b => rfl
  | string s => rfl
  | other t => rfl

theorem walkVal_failure (h : Heap) (hwf : h.wellFormed = true) (v : Iface)
    (segs : List String) (hval : v.validIn h = true) :
    (walkVal h v segs).mapError Err.failure = specWalk h v segs := by
  induction segs generalizing v with
  | nil => rfl
  | cons seg segs ih =>
    simp only [walkVal, specWalk]
    rw [← stepVal_failure h v seg hval]
    cases hs : stepVal h v seg with
    | error e => rfl
    | ok w =>
      obtain ⟨c, o, _, ho, hm⟩ := stepVal_ok_ref h v w seg hs
      exact ih w (h.wf_slots hwf c o ho w hm)

/-- C6: in a well-formed store, for a root handle whose value is `v0` and every path, the
result of `Get` read through the handle it returns, with failures reduced to their kind, is
the result of splitting the path at every dot and applying one child selection per
segment in order starting from `v0`: on an array the segment must read as a base-10
integer in the signed 16-bit range (else an index parse error) and lie within the bounds
(else an out-of-range fault); on an object it must be a key (else key not found); on any
other value the step fails as a leaf. -/
theorem Get_eq_stepwise_selection (h : Heap) (hwf : h.wellFormed = true) (root : Node)
    (v0 : Iface) (path : String) (hv : root.Value h = .ok v0) :
    (root.valueAt h path).mapError Err.failure = specGet h v0 path := by
  unfold specGet
  rw [specSplit_eq_Split, Node.valueAt_eq_walkVal h hwf root v0 path hv]
  exact walkVal_failure h hwf v0 _ (Node.load_valid h hwf root v0 hv)

theorem Get_eq_stepwise_selection_witness :
    (exDoc.wellFormed = true ∧ rootNode.Value exDoc = .ok (.map 2)) ∧
    (rootNode.valueAt exDoc "a.b.1").mapError Err.failure = specGet exDoc (.map 2) "a.b.1" :=
  ⟨by decide, Get_eq_stepwise_selection exDoc (by decide) rootNode (.map 2) "a.b.1" (by decide)⟩

/-- C12 as stated is false: `"+1"` is not a string of decimal digits, yet on `[1,2,3]`
`GetChild("+1")` succeeds and returns the handle of element 1, which holds `2`. -/
theorem signed_index_is_accepted :
    isDigits "+1" = false ∧
      rootNode.GetChild arrDoc "+1" = (.ok ⟨some (.elem 0 1)⟩, arrDoc) ∧
      Node.Value arrDoc ⟨some (.elem 0 1)⟩ = .ok f2 := by
  decide

/-- C12, amended: for every handle on an array and every segment that does not read as a
base-10 integer in the signed 16-bit range (an optional sign, then one or more decimal
digits, value from `-32768` to `32767`), `GetChild` and `SetChild` both fail with the
`ParseInt` error for that segment, return no element and leave the store as it was. -/
theorem index_parse_error (h : Heap) (node : Node) (seg : String) (a off len : Nat)
    (X : Iface) (hv : node.Value h = .ok (.slice a off len)) (hbad : specInt16 seg = none) :
    ∃ r, node.GetChild h seg = (.error (.numError "ParseInt" seg r), h) ∧
      node.SetChild h seg X = (.error (.numError "ParseInt" seg r), h) := by
  obtain ⟨r, hr⟩ := (ParseInt_spec seg).2 hbad
  refine ⟨r, ?_, ?_⟩
  · rw [Node.GetChild_slice h node seg a off len hv, hr]
  · rw [Node.SetChild_slice h node seg X a off len hv, hr]

theorem index_parse_error_witness :
    (rootNode.Value arrDoc = .ok (.slice 0 0 3) ∧ specInt16 "x" = none) ∧
    ∃ r, rootNode.GetChild arrDoc "x" = (.error (.numError "ParseInt" "x" r), arrDoc) ∧
      rootNode.SetChild arrDoc "x" f99 = (.error (.numError "ParseInt" "x" r), arrDoc) :=
  ⟨by decide, index_parse_error arrDoc rootNode "x" 0 0 3 f99 (by decide) (by decide)⟩

/-! ## Decoded documents are well-formed and acyclic -/

theorem ValOK.mono (os os' : List Obj) (b b' : Nat) (v : Iface) (hp : os <+: os')
    (hb : b ≤ b') (hv : ValOK os b v) : ValOK os' b' v := by
  refine ⟨?_, fun r hr => Nat.lt_of_lt_of_le (hv.2 r hr) hb⟩
  have h1 := hv.1
  cases v with
  | slice a off len =>
    simp only [Iface.validIn] at h1 ⊢
    cases ho : os[a]? with
    | none => simp [ho] at h1
    | some o =>
      rw [prefix_getElem? os os' hp a o ho]
      rw [ho] at h1
      exact h1
  | map m =>
    simp only [Iface.validIn] at h1 ⊢
    cases ho : os[m]? with
    | none => simp [ho] at h1
    | some o =>
      rw [prefix_getElem? os os' hp m o ho]
      rw [ho] at h1
      exact h1
  | nil => rfl
  | bool b => rfl
  | float64 b => rfl
  | string s => rfl
  | other t => rfl

theorem SlotsOK.snoc (os : List Obj) (o : Obj) (hs : SlotsOK os)
    (ho : ∀ v ∈ o.slots, ValOK os os.length v) (hk : o.keysNodup = true) :
    SlotsOK (os ++ [o]) := by
  intro c o' hc
  have hpre : os <+: os ++ [o] := List.prefix_append _ _
  by_cases hlt : c < os.length
  · rw [List.getElem?_append_left hlt] at hc
    obtain ⟨h1, h2⟩ := hs c o' hc
    exact ⟨fun v hv => ValOK.mono os _ c c v hpre (Nat.le_refl _) (h1 v hv), h2⟩
  · have hlen := getElem?_lt_length _ _ _ hc
    simp only [List.length_append, List.length_singleton] at hlen
    have hceq : c = os.length := by omega
    subst hceq
    simp only [List.getElem?_concat_length, Option.some.injEq] at hc
    subst hc
    exact ⟨fun v hv => ValOK.mono os _ _ _ v hpre (Nat.le_refl _) (ho v hv), hk⟩

theorem mapAssign_slots (k : String) (v : Iface) (es : List (String × Iface)) (w : Iface)
    (hw : w ∈ (mapAssign k v es).map Prod.snd) : w = v ∨ w ∈ es.map Prod.snd := by
  induction es with
  | nil =>
    simp only [mapAssign, List.map_cons, List.map_nil, List.mem_singleton] at hw
    exact Or.inl hw
  | cons e es ih =>
    obtain ⟨k', v'⟩ := e
    by_cases hk : k' = k
    · simp only [mapAssign, if_pos hk, List.map_cons, List.mem_cons] at hw ⊢
      rcases hw with h1 | h1
      · exact Or.inl h1
      · exact Or.inr (Or.inr h1)
    · simp only [mapAssign, if_neg hk, List.map_cons, List.mem_cons] at hw ⊢
      rcases hw with h1 | h1
      · exact Or.inr (Or.inl h1)
      · rcases ih h1 with h2 | h2
        · exact Or.inl h2
        · exact Or.inr (Or.inr h2)

theorem mapAssign_keys_mem (k : String) (v : Iface) (es : List (String × Iface)) (k2 : String)
    (hk2 : k2 ∈ (mapAssign k v es).map Prod.fst) : k2 = k ∨ k2 ∈ es.map Prod.fst := by
  induction es with
  | nil =>
    simp only [mapAssign, List.map_cons, List.map_nil, List.mem_singleton] at hk2
    exact Or.inl hk2
  | cons e es ih =>
    obtain ⟨k', v'⟩ := e
    by_cases hk : k' = k
    · simp only [mapAssign, if_pos hk, List.map_cons, List.mem_cons] at hk2 ⊢
      rcases hk2 with h1 | h1
      · exact Or.inl h1
      · exact Or.inr (Or.inr h1)
    · simp only [mapAssign, if_neg hk, List.map_cons, List.mem_cons] at hk2 ⊢
      rcases hk2 with h1 | h1
      · exact Or.inr (Or.inl h1)
      · rcases ih h1 with h2 | h2
        · exact Or.inl h2
        · exact Or.inr (Or.inr h2)

theorem mapAssign_nodup (k : String) (v : Iface) (es : List (String × Iface))
    (hn : (es.map Prod.fst).Nodup) : ((mapAssign k v es).map Prod.fst).Nodup := by
  induction es with
  | nil => simp [mapAssign]
  | cons e es ih =>
    obtain ⟨k', v'⟩ := e
    simp only [List.map_cons, List.nodup_cons] at hn
    by_cases hk : k' = k
    · subst hk
      simp only [mapAssign, if_true, List.map_cons, List.nodup_cons]
      exact hn
    · simp only [mapAssign, if_neg hk, List.map_cons, List.nodup_cons]
      refine ⟨fun hmem => ?_, ih hn.2⟩
      rcases mapAssign_keys_mem k v es k' hmem with h1 | h1
      · exact hk h1
      · exact hn.1 h1

mutual
theorem decodeValue_ok : ∀ (j : JSON) (os : List Obj), SlotsOK os →
    os <+: (decodeValue j os).2 ∧ SlotsOK (decodeValue j os).2 ∧
      ValOK (decodeValue j os).2 (decodeValue j os).2.length (decodeValue j os).1
  | .null, os, hs => ⟨List.prefix_refl _, hs, rfl, fun r hr => by cases hr⟩
  | .bool b, os, hs => ⟨List.prefix_refl _, hs, rfl, fun r hr => by cases hr⟩
  | .number n, os, hs => ⟨List.prefix_refl _, hs, rfl, fun r hr => by cases hr⟩
  | .string s, os, hs => ⟨List.prefix_refl _, hs, rfl, fun r hr => by cases hr⟩
  | .array xs, os, hs => by
    obtain ⟨hp, hso, hv⟩ := decodeElems_ok xs os hs
    simp only [decodeValue]
    refine ⟨hp.trans (List.prefix_append _ _), SlotsOK.snoc _ _ hso hv rfl, ?_, ?_⟩
    · simp [Iface.validIn]
    · intro r hr
      simp only [Iface.ref?, Option.some.injEq] at hr
      simp only [List.length_append, List.length_singleton]
      omega
  | .object kvs, os, hs => by
    obtain ⟨hp, hso, hv, hn⟩ := decodeMembers_ok kvs os [] hs
      (fun v hv => by simp [Obj.slots] at hv) (by simp)
    simp only [decodeValue]
    refine ⟨hp.trans (List.prefix_append _ _),
      SlotsOK.snoc _ _ hso hv (by simpa [Obj.keysNodup] using hn), ?_, ?_⟩
    · simp [Iface.validIn]
    · intro r hr
      simp only [Iface.ref?, Option.some.injEq] at hr
      simp only [List.length_append, List.length_singleton]
      omega
theorem decodeElems_ok : ∀ (xs : List JSON) (os : List Obj), SlotsOK os →
    os <+: (decodeElems xs os).2 ∧ SlotsOK (decodeElems xs os).2 ∧
      ∀ v ∈ (Obj.arr (decodeElems xs os).1).slots,
        ValOK (decodeElems xs os).2 (decodeElems xs os).2.length v
  | [], os, hs => ⟨List.prefix_refl _, hs, fun v hv => by simp [decodeElems, Obj.slots] at hv⟩
  | x :: xs, os, hs => by
    obtain ⟨hp1, hs1, hv1⟩ := decodeValue_ok x os hs
    obtain ⟨hp2, hs2, hv2⟩ := decodeElems_ok xs (decodeValue x os).2 hs1
    simp only [decodeElems]
    refine ⟨hp1.trans hp2, hs2, fun v hv => ?_⟩
    simp only [Obj.slots, List.mem_cons] at hv
    rcases hv with h1 | h1
    · rw [h1]
      exact ValOK.mono _ _ _ _ _ hp2 hp2.length_le hv1
    · exact hv2 v h1
theorem decodeMembers_ok : ∀ (kvs : List (String × JSON)) (os : List Obj)
    (acc : List (String × Iface)), SlotsOK os →
    (∀ v ∈ (Obj.map acc).slots, ValOK os os.length v) → (acc.map Prod.fst).Nodup →
    os <+: (decodeMembers kvs os acc).2 ∧ SlotsOK (decodeMembers kvs os acc).2 ∧
      (∀ v ∈ (Obj.map (decodeMembers kvs os acc).1).slots,
        ValOK (decodeMembers kvs os acc).2 (decodeMembers kvs os acc).2.length v) ∧
      ((decodeMembers kvs os acc).1.map Prod.fst).Nodup
  | [], os, acc, hs, ha, hn => ⟨List.prefix_refl _, hs, ha, hn⟩
  | (k, x) :: kvs, os, acc, hs, ha, hn => by
    obtain ⟨hp1, hs1, hv1⟩ := decodeValue_ok x os hs
    have ha' : ∀ v ∈ (Obj.map (mapAssign k (decodeValue x os).1 acc)).slots,
        ValOK (decodeValue x os).2 (decodeValue x os).2.length v := by
      intro v hv
      rcases mapAssign_slots k _ acc v hv with h1 | h1
      · rw [h1]
        exact hv1
      · exact ValOK.mono _ _ _ _ _ hp1 hp1.length_le (ha v h1)
    obtain ⟨hp2, hs2, hv2, hn2⟩ := decodeMembers_ok kvs (decodeValue x os).2
      (mapAssign k (decodeValue x os).1 acc) hs1 ha' (mapAssign_nodup k _ acc hn)
    simp only [decodeMembers]
    exact ⟨hp1.trans hp2, hs2, hv2, hn2⟩
end

theorem SlotsOK.nil : SlotsOK [] := by
  intro c o hc
  simp at hc

theorem SlotsOK.heap_wellFormed (vars : List Iface) (os : List Obj) (hs : SlotsOK os)
    (hv : ∀ v ∈ vars, ValOK os os.length v) :
    (⟨vars, os⟩ : Heap).wellFormed = true := by
  unfold Heap.wellFormed
  rw [Bool.and_eq_true, List.all_eq_true, List.all_eq_true]
  constructor
  · intro v hmem
    rw [Iface.validIn_congr ⟨[], os⟩ ⟨vars, os⟩ rfl]
    exact (hv v hmem).1
  · intro o hmem
    obtain ⟨c, hc⟩ := List.mem_iff_getElem?.mp hmem
    obtain ⟨h1, h2⟩ := hs c o hc
    rw [Bool.and_eq_true, List.all_eq_true]
    refine ⟨fun v hvm => ?_, h2⟩
    rw [Iface.validIn_congr ⟨[], os⟩ ⟨vars, os⟩ rfl]
    exact (h1 v hvm).1

theorem SlotsOK.heap_acyclic (vars : List Iface) (os : List Obj) (hs : SlotsOK os) :
    (⟨vars, os⟩ : Heap).acyclic = true := by
  unfold Heap.acyclic
  rw [List.all_eq_true]
  intro c hc
  have hlt : c < os.length := List.mem_range.mp hc
  have hget : os[c]? = some os[c] := List.getElem?_eq_getElem hlt
  have hD : os.getD c (.arr []) = os[c] := by
    simp [List.getD_eq_getElem?_getD, hget]
  simp only [hD]
  rw [List.all_eq_true]
  intro v hv
  obtain ⟨h1, _⟩ := hs c _ hget
  cases hr : v.ref? with
  | none => rfl
  | some r =>
    simp only [decide_eq_true_eq]
    exact (h1 v hv).2 r hr

/-- Every decoded document is a well-formed, acyclic store whose root handle can be read:
the hypotheses under which the path operations are studied hold of whatever `Bytes2Node`
returns. -/
theorem Bytes2Node_document (j : JSON) :
    (Bytes2Node j).2.wellFormed = true ∧ (Bytes2Node j).2.acyclic = true ∧
      (Bytes2Node j).1.Value (Bytes2Node j).2 = .ok (decodeValue j []).1 := by
  obtain ⟨_, hs, hv⟩ := decodeValue_ok j [] SlotsOK.nil
  refine ⟨?_, ?_, ?_⟩
  · exact SlotsOK.heap_wellFormed _ _ hs (fun v hmem => by
      simp only [List.mem_singleton] at hmem
      rw [hmem]
      exact hv)
  · exact SlotsOK.heap_acyclic _ _ hs
  · simp [Bytes2Node, Node.Value, Node.load, Heap.deref]

/-- The document of the specification's scenario, decoded. -/
theorem Bytes2Node_exJSON : Bytes2Node exJSON = (rootNode, exDoc) := by
  decide

end Djson
